import Mathlib

/-!
Verification of the `jsontools` Python module (`src/jsontools/jsontools.py`)
against its natural-language specification.

The JSON data model and every operation the claims mention are embedded
shallowly: Python dicts become ordered association lists (insertion order is
part of the model, as in CPython), in-place mutation becomes explicit state
passing, lazily produced generator sequences become fully materialised lists
(the generators are pull-based and finite on acyclic input, so the list of
everything they yield is faithful), and fallible code returns `Except`.
-/

set_option maxRecDepth 8192

namespace JsonTools

/-- JSON values exactly as the Python module's type alias `JsonValue` admits
them: scalars (`None`, `bool`, numbers, `str`), objects (Python `dict`,
modelled as an ordered list of key-value pairs because dict insertion order is
observable and preserved), and arrays (Python `list`). -/
inductive Json where
  | null : Json
  | bool (b : Bool) : Json
  | num (n : Int) : Json
  | str (s : String) : Json
  | obj (fields : List (String × Json)) : Json
  | arr (elems : List Json) : Json
  deriving Repr

/-- Scalars in the sense of the module: anything that is neither a `dict` nor
a `list` (the Python code tests `isinstance(x, (list, dict))`). -/
def Json.isScalar : Json → Bool
  | .obj _ => false
  | .arr _ => false
  | _ => true

theorem sizeOf_snd_lt_of_mem {fields : List (String × Json)} {kv : String × Json}
    (h : kv ∈ fields) : sizeOf kv.2 < sizeOf (Json.obj fields) := by
  have h1 : sizeOf kv < sizeOf fields := List.sizeOf_lt_of_mem h
  have h2 : sizeOf kv.2 < sizeOf kv := by
    obtain ⟨k, v⟩ := kv
    simp only [Prod.mk.sizeOf_spec]
    omega
  simp only [Json.obj.sizeOf_spec]
  omega

theorem sizeOf_elem_lt_of_mem {elems : List Json} {x : Json}
    (h : x ∈ elems) : sizeOf x < sizeOf (Json.arr elems) := by
  have := List.sizeOf_lt_of_mem h
  simp only [Json.arr.sizeOf_spec]
  omega

/-- Tree induction for the nested inductive `Json`: to prove a property of
every value it suffices to handle each constructor, with the object case given
the property for every field value and the array case for every element. -/
theorem Json.treeInd (P : Json → Prop)
    (hnull : P .null) (hbool : ∀ b, P (.bool b)) (hnum : ∀ n, P (.num n))
    (hstr : ∀ s, P (.str s))
    (hobj : ∀ fields, (∀ kv ∈ fields, P kv.2) → P (.obj fields))
    (harr : ∀ elems, (∀ x ∈ elems, P x) → P (.arr elems)) :
    ∀ t, P t
  | .null => hnull
  | .bool b => hbool b
  | .num n => hnum n
  | .str s => hstr s
  | .obj fields => hobj fields (fun kv h =>
      Json.treeInd P hnull hbool hnum hstr hobj harr kv.2)
  | .arr elems => harr elems (fun x h =>
      Json.treeInd P hnull hbool hnum hstr hobj harr x)
termination_by t => sizeOf t
decreasing_by
  · exact sizeOf_snd_lt_of_mem h
  · exact sizeOf_elem_lt_of_mem h

/-- The prefix extension the Python code performs for a dict key:
`new_prefix = (f'{prefix}/' if prefix else '') + key`. -/
def extendPath (pfx key : String) : String :=
  (if pfx = "" then "" else pfx ++ "/") ++ key

mutual

/-- Embedding of `flatten(json_value, prefix='')`: for a dict, each key-value
pair is yielded under the extended path and then recursed into; for a list,
nothing is yielded for the element itself and each element is recursed into
under `prefix + f'[{i}]'`; scalars yield nothing.  The list collects, in
order, everything the Python generator yields. -/
def flatten : Json → String → List (String × Json)
  | .obj fields, pfx => flattenFields fields pfx
  | .arr elems, pfx => flattenElems elems pfx 0
  | _, _ => []

/-- The dict branch of `flatten`, iterating `json_value.items()` in order. -/
def flattenFields : List (String × Json) → String → List (String × Json)
  | [], _ => []
  | (k, v) :: rest, pfx =>
    ((extendPath pfx k, v) :: flatten v (extendPath pfx k)) ++ flattenFields rest pfx

/-- The list branch of `flatten`, iterating `enumerate(json_value)`. -/
def flattenElems : List Json → String → Nat → List (String × Json)
  | [], _, _ => []
  | v :: rest, pfx, i =>
    flatten v (pfx ++ "[" ++ toString i ++ "]") ++ flattenElems rest pfx (i + 1)

end

mutual

/-- Structural equality test for `Json` (Python `==` on the modelled values). -/
def Json.beq : Json → Json → Bool
  | .null, .null => true
  | .bool a, .bool b => a == b
  | .num a, .num b => a == b
  | .str a, .str b => a == b
  | .obj a, .obj b => fieldsBeq a b
  | .arr a, .arr b => elemsBeq a b
  | _, _ => false

/-- Equality test on object field lists. -/
def fieldsBeq : List (String × Json) → List (String × Json) → Bool
  | [], [] => true
  | (k1, v1) :: r1, (k2, v2) :: r2 => k1 == k2 && Json.beq v1 v2 && fieldsBeq r1 r2
  | _, _ => false

/-- Equality test on array element lists. -/
def elemsBeq : List Json → List Json → Bool
  | [], [] => true
  | a :: r1, b :: r2 => Json.beq a b && elemsBeq r1 r2
  | _, _ => false

end

theorem Json.beq_eq_true_iff : ∀ a b : Json, Json.beq a b = true ↔ a = b := by
  have main : ∀ a : Json, ∀ b : Json, Json.beq a b = true ↔ a = b := by
    intro a
    induction a using Json.treeInd with
    | hnull => intro b; cases b <;> simp [Json.beq]
    | hbool x => intro b; cases b <;> simp [Json.beq]
    | hnum x => intro b; cases b <;> simp [Json.beq]
    | hstr x => intro b; cases b <;> simp [Json.beq]
    | hobj fields ih =>
      intro b
      cases b with
      | obj gfields =>
        simp only [Json.beq, Json.obj.injEq]
        induction fields generalizing gfields with
        | nil => cases gfields <;> simp [fieldsBeq]
        | cons kv rest ihr =>
          obtain ⟨k, v⟩ := kv
          cases gfields with
          | nil => simp [fieldsBeq]
          | cons kw grest =>
            obtain ⟨k2, v2⟩ := kw
            have hv := ih (k, v) (by simp) v2
            have hrest := ihr (fun kv h b => ih kv (by simp [h]) b) grest
            simp only [fieldsBeq, Bool.and_eq_true, beq_iff_eq, List.cons.injEq,
              Prod.mk.injEq]
            constructor
            · rintro ⟨⟨hk, hb⟩, hr⟩
              exact ⟨⟨hk, hv.mp hb⟩, hrest.mp hr⟩
            · rintro ⟨⟨hk, hveq⟩, hr⟩
              exact ⟨⟨hk, hv.mpr hveq⟩, hrest.mpr hr⟩
      | null => simp [Json.beq]
      | bool x => simp [Json.beq]
      | num x => simp [Json.beq]
      | str x => simp [Json.beq]
      | arr x => simp [Json.beq]
    | harr elems ih =>
      intro b
      cases b with
      | arr gelems =>
        simp only [Json.beq, Json.arr.injEq]
        induction elems generalizing gelems with
        | nil => cases gelems <;> simp [elemsBeq]
        | cons x rest ihr =>
          cases gelems with
          | nil => simp [elemsBeq]
          | cons y grest =>
            have hx := ih x (by simp) y
            have hrest := ihr (fun z h b => ih z (by simp [h]) b) grest
            simp only [elemsBeq, Bool.and_eq_true, List.cons.injEq]
            constructor
            · rintro ⟨hb, hr⟩
              exact ⟨hx.mp hb, hrest.mp hr⟩
            · rintro ⟨hb, hr⟩
              exact ⟨hx.mpr hb, hrest.mpr hr⟩
      | null => simp [Json.beq]
      | bool x => simp [Json.beq]
      | num x => simp [Json.beq]
      | str x => simp [Json.beq]
      | obj x => simp [Json.beq]
  exact main

instance : DecidableEq Json := fun a b =>
  decidable_of_iff (Json.beq a b = true) (Json.beq_eq_true_iff a b)

/-- The concrete scenario tree of the specification:
`{"a":1,"b":{"b-a":1,"c":[{"x":1},{"x":2}]}}`. -/
def scenarioTree : Json :=
  .obj [("a", .num 1),
        ("b", .obj [("b-a", .num 1),
                    ("c", .arr [.obj [("x", .num 1)], .obj [("x", .num 2)]])])]

/-- C3: on the scenario tree, `flatten` yields exactly the six pairs of the
specification, in order: `a`, `b`, `b/b-a`, `b/c`, `b/c[0]/x`, `b/c[1]/x`. -/
theorem flatten_scenario :
    flatten scenarioTree "" =
      [("a", .num 1),
       ("b", .obj [("b-a", .num 1),
                   ("c", .arr [.obj [("x", .num 1)], .obj [("x", .num 2)]])]),
       ("b/b-a", .num 1),
       ("b/c", .arr [.obj [("x", .num 1)], .obj [("x", .num 2)]]),
       ("b/c[0]/x", .num 1),
       ("b/c[1]/x", .num 2)] := by
  decide

/-!
## PathCodec: `FLATTEN_PATH_END` and `decompose_flatten_path`

The terminal regex is `(?:\[(?P<index>\d+)\])?/?(?P<key>[^/\[\]]*)$`.  The
embedding below implements Python `re.search` semantics for exactly this
pattern: the leftmost starting position admitting a match, where a match is
the optional `[index]` alternative, an optional `/`, and a (possibly empty)
run of key characters extending to the end of the string.  `\d` is modelled
as the ASCII digits, which is what `flatten`-produced indices contain.
-/

/-- The characters the `key` group `[^/\[\]]*` accepts: anything except `/`,
`[` and `]`. -/
def keyChar (c : Char) : Bool := !(c = '/' || c = '[' || c = ']')

/-- `int(...)` applied to the digit text captured by the `index` group. -/
def digitsToNat (ds : List Char) : Nat :=
  ds.foldl (fun n c => n * 10 + (c.toNat - '0'.toNat)) 0

/-- The `(?:\[(?P<index>\d+)\])?` alternative: `[`, one or more digits, `]`.
Returns the digit run and the remaining characters.  The digit run is maximal;
a shorter run cannot help, since the character ending the maximal run is not
`]` and not a digit. -/
def bracketAfter (rest : List Char) : Option (List Char × List Char) :=
  match rest.takeWhile Char.isDigit, rest.dropWhile Char.isDigit with
  | [], _ => none
  | ds, ']' :: rest2 => some (ds, rest2)
  | _, _ => none

def bracketParse : List Char → Option (List Char × List Char)
  | [] => none
  | c :: rest => if c = '[' then bracketAfter rest else none

/-- The `/?(?P<key>[^/\[\]]*)$` tail: an optional `/`, then the key group,
which must extend to the end of the string.  When the first character is `/`
the greedy `/?` consumes it; backtracking over that choice can never succeed
because the key group cannot contain `/`. -/
def tailMatch : List Char → Option (List Char)
  | [] => some []
  | c :: rest =>
    if c = '/' then (if rest.all keyChar then some rest else none)
    else (if (c :: rest).all keyChar then some (c :: rest) else none)

/-- A match of the full pattern starting at this position; the trailing `$`
forces it to extend to the end.  Returns the index group and the key group.
When the bracket alternative consumes characters but the tail then fails, the
regex backtracks to the empty bracket alternative, which also fails because
the key group cannot contain the leading `[`; returning `none` directly is
therefore faithful. -/
def matchAt (cs : List Char) : Option (Option Nat × List Char) :=
  match bracketParse cs with
  | some (ds, rest) => (tailMatch rest).map (fun k => (some (digitsToNat ds), k))
  | none => (tailMatch cs).map (fun k => (none, k))

/-- `FLATTEN_PATH_END.search`: scan left to right for the first position whose
match reaches the end; return the characters before the match together with
the index and key groups.  The `none` branch mirrors `re.search` returning no
match (it is in fact unreachable because the empty suffix always matches). -/
def reSearch : List Char → Option (List Char × Option Nat × List Char)
  | [] =>
    match matchAt [] with
    | some (i, k) => some ([], i, k)
    | none => none
  | c :: rest =>
    match matchAt (c :: rest) with
    | some (i, k) => some ([], i, k)
    | none => (reSearch rest).map (fun r => (c :: r.1, r.2.1, r.2.2))

/-- Embedding of `decompose_flatten_path`: search `FLATTEN_PATH_END`, raise
`ValueError` (the spec's `InvalidPathError`, modelled as `Except.error`) when
there is no match, convert the index group with `int`, strip the match with
`re.sub` (the leftmost match spans to the end of the string, and the only
further replaceable match is the empty one at the very end, so the
substitution leaves exactly the characters before the leftmost match), and
when the index group is absent re-append `/key` to the stripped prefix, as
line 71 of the source does. -/
def decompose_flatten_path (flatten_path : String) :
    Except String (String × Option Nat × String) :=
  match reSearch flatten_path.toList with
  | none => .error ("Given path is not a flatten path: " ++ flatten_path)
  | some (pre, index, key) =>
    let pfx0 : String := String.mk pre
    let keyS : String := String.mk key
    let pfx := if index = none then pfx0 ++ (if pfx0 = "" then "" else "/") ++ keyS
               else pfx0
    .ok (pfx, index, keyS)

/-- C1 (evaluation at the claimed inputs): the code returns `("c", 3, "")` for
`"c[3]"` — the key group matches the empty string after `[3]`, so key is `""`,
not `"c"` — and `("c[3]/c-c/c-c-c", none, "c-c-c")` for `"c[3]/c-c/c-c-c"` —
when the index group is absent the code re-appends the key, so the prefix is
the whole path, not `"c[3]/c-c"`.  Both disagree with the claim and with the
function's own doctest examples `('', 'c', 3)` and
`('c[3]/c-c', 'c-c-c', None)`: the code contradicts its own documentation. -/
theorem decompose_worked_examples_eval :
    decompose_flatten_path "c[3]" = .ok ("c", some 3, "") ∧
    decompose_flatten_path "c[3]/c-c/c-c-c" = .ok ("c[3]/c-c/c-c-c", none, "c-c-c") ∧
    ("" : String) ≠ "c" ∧ ("c[3]/c-c/c-c-c" : String) ≠ "c[3]/c-c" :=
  ⟨by rfl, by rfl, by decide, by decide⟩

/-- C7 counterexample: `"]x["` matches no `segment` or `segment[index]` token
of the flattened-path grammar, yet `decompose_flatten_path` succeeds on it
(the terminal pattern matches the empty suffix of any string), so the claim
that such inputs fail with `InvalidPathError` is false. -/
theorem decompose_invalid_string_ok :
    decompose_flatten_path "]x[" = .ok ("]x[/", none, "") := by rfl

theorem matchAt_nil : matchAt [] = some (none, []) := by rfl

theorem reSearch_isSome : ∀ cs : List Char, ∃ r, reSearch cs = some r := by
  intro cs
  induction cs with
  | nil => exact ⟨([], none, []), rfl⟩
  | cons c rest ih =>
    rcases h : matchAt (c :: rest) with _ | ⟨i, k⟩
    · obtain ⟨r, hr⟩ := ih
      exact ⟨(c :: r.1, r.2.1, r.2.2), by simp [reSearch, h, hr]⟩
    · exact ⟨([], i, k), by simp [reSearch, h]⟩

/-- C7 amended: `decompose_flatten_path` never raises at all — the terminal
pattern can match the empty string, so `re.search` succeeds on every input and
the `ValueError` branch is dead code. -/
theorem decompose_never_raises (s : String) :
    ∃ r, decompose_flatten_path s = .ok r := by
  obtain ⟨⟨pre, index, key⟩, hr⟩ := reSearch_isSome s.toList
  unfold decompose_flatten_path
  rw [hr]
  exact ⟨_, rfl⟩

/-!
## Flattening of arrays versus objects (C4)
-/

theorem flattenElems_enumFrom : ∀ (elems : List Json) (pfx : String) (i : Nat),
    flattenElems elems pfx i =
      ((List.enumFrom i elems).map
        (fun iv => flatten iv.2 (pfx ++ "[" ++ toString iv.1 ++ "]"))).flatten := by
  intro elems
  induction elems with
  | nil => intro pfx i; rfl
  | cons v rest ih => intro pfx i; simp [flattenElems, List.enumFrom, ih]

/-- C4: `flatten` of a scalar yields nothing; `flatten` of an array yields no
pair for the array itself, only the concatenation of the flattenings of its
elements under the prefixes `prefix[index]` — in particular an array all of
whose elements are scalars contributes no pair at all — whereas every
key-value entry of an object is itself yielded (under the extended path),
scalar or composite alike. -/
theorem flatten_array_asymmetry :
    (∀ (v : Json) (pfx : String), v.isScalar = true → flatten v pfx = []) ∧
    (∀ (elems : List Json) (pfx : String), flatten (.arr elems) pfx =
      ((List.enumFrom 0 elems).map
        (fun iv => flatten iv.2 (pfx ++ "[" ++ toString iv.1 ++ "]"))).flatten) ∧
    (∀ (elems : List Json) (pfx : String), (∀ v ∈ elems, v.isScalar = true) →
      flatten (.arr elems) pfx = []) ∧
    (∀ (fields : List (String × Json)) (pfx : String) (kv : String × Json),
      kv ∈ fields → (extendPath pfx kv.1, kv.2) ∈ flatten (.obj fields) pfx) := by
  have hscalar : ∀ (v : Json) (pfx : String), v.isScalar = true → flatten v pfx = [] := by
    intro v pfx hv
    cases v <;> simp [Json.isScalar] at hv <;> rfl
  refine ⟨hscalar, ?_, ?_, ?_⟩
  · intro elems pfx
    show flattenElems elems pfx 0 = _
    exact flattenElems_enumFrom elems pfx 0
  · intro elems pfx hall
    show flattenElems elems pfx 0 = []
    have : ∀ (l : List Json) (i : Nat), (∀ v ∈ l, v.isScalar = true) →
        flattenElems l pfx i = [] := by
      intro l
      induction l with
      | nil => intro i _; rfl
      | cons v rest ih =>
        intro i hl
        have hv := hscalar v (pfx ++ "[" ++ toString i ++ "]") (hl v (by simp))
        simp [flattenElems, hv, ih (i + 1) (fun w hw => hl w (by simp [hw]))]
    exact this elems 0 hall
  · intro fields pfx kv hmem
    show _ ∈ flattenFields fields pfx
    induction fields with
    | nil => cases hmem
    | cons kw rest ih =>
      obtain ⟨k, w⟩ := kw
      rcases List.mem_cons.mp hmem with heq | htail
      · subst heq
        simp [flattenFields]
      · simp only [flattenFields, List.mem_append, List.mem_cons]
        exact Or.inr (ih htail)

/-- Witness for C4: each hypothesis discharged at a concrete input — a scalar
flattens to nothing, an array of scalars flattens to nothing, and an object
entry is yielded. -/
theorem flatten_array_asymmetry_witness :
    flatten (Json.num 3) "p" = [] ∧
    flatten (Json.arr [Json.num 1, Json.bool true]) "q" = [] ∧
    (extendPath "" "k", Json.num 7) ∈ flatten (Json.obj [("k", Json.num 7)]) "" :=
  ⟨flatten_array_asymmetry.1 (Json.num 3) "p" (by decide),
   flatten_array_asymmetry.2.2.1 [Json.num 1, Json.bool true] "q" (by decide),
   flatten_array_asymmetry.2.2.2 [("k", Json.num 7)] "" ("k", Json.num 7) (by decide)⟩

/-!
## TreeWalker: `walk_structures` (C5)
-/

mutual

/-- Embedding of the inner generator of `walk_structures`: the depth cutoff is
tested on entry for every value (`if max_depth != -1 and current_depth >
max_depth: return`), a dict is yielded and then its values are walked at depth
`current_depth + 1`, and a list's elements are walked at the same depth. -/
def inner_walk_structures : Json → Int → Int → List Json
  | t, currentDepth, maxDepth =>
    if maxDepth ≠ -1 ∧ maxDepth < currentDepth then []
    else
      match t with
      | .obj fields => Json.obj fields :: walkFields fields currentDepth maxDepth
      | .arr elems => walkElems elems currentDepth maxDepth
      | _ => []

/-- The dict branch: walk each value (in insertion order) one level deeper. -/
def walkFields : List (String × Json) → Int → Int → List Json
  | [], _, _ => []
  | (_, v) :: rest, d, m =>
    inner_walk_structures v (d + 1) m ++ walkFields rest d m

/-- The list branch: walk each element at the same depth. -/
def walkElems : List Json → Int → Int → List Json
  | [], _, _ => []
  | v :: rest, d, m => inner_walk_structures v d m ++ walkElems rest d m

end

/-- Embedding of `walk_structures(json_value, max_depth=-1)`. -/
def walk_structures (t : Json) (maxDepth : Int) : List Json :=
  inner_walk_structures t 0 maxDepth

mutual

/-- The unbounded walk annotated with the object-nesting depth at which each
dict is yielded: depth increases only when descending from a dict into one of
its values; arrays are transparent. -/
def walkAnnot : Json → Int → List (Json × Int)
  | .obj fields, d => (Json.obj fields, d) :: walkAnnotFields fields d
  | .arr elems, d => walkAnnotElems elems d
  | _, _ => []

def walkAnnotFields : List (String × Json) → Int → List (Json × Int)
  | [], _ => []
  | (_, v) :: rest, d => walkAnnot v (d + 1) ++ walkAnnotFields rest d

def walkAnnotElems : List Json → Int → List (Json × Int)
  | [], _ => []
  | v :: rest, d => walkAnnot v d ++ walkAnnotElems rest d

end

theorem walkAnnotFields_bind : ∀ (fields : List (String × Json)) (d : Int),
    walkAnnotFields fields d = fields.flatMap (fun kv => walkAnnot kv.2 (d + 1)) := by
  intro fields
  induction fields with
  | nil => intro d; rfl
  | cons kv rest ih =>
    intro d
    obtain ⟨k, v⟩ := kv
    simp [walkAnnotFields, List.flatMap, ih]

theorem walkAnnotElems_bind : ∀ (elems : List Json) (d : Int),
    walkAnnotElems elems d = elems.flatMap (fun v => walkAnnot v d) := by
  intro elems
  induction elems with
  | nil => intro d; rfl
  | cons v rest ih =>
    intro d
    simp [walkAnnotElems, List.flatMap, ih]

theorem walkFields_bind : ∀ (fields : List (String × Json)) (d m : Int),
    walkFields fields d m = fields.flatMap (fun kv => inner_walk_structures kv.2 (d + 1) m) := by
  intro fields
  induction fields with
  | nil => intro d m; rfl
  | cons kv rest ih =>
    intro d m
    obtain ⟨k, v⟩ := kv
    simp [walkFields, List.flatMap, ih]

theorem walkElems_bind : ∀ (elems : List Json) (d m : Int),
    walkElems elems d m = elems.flatMap (fun v => inner_walk_structures v d m) := by
  intro elems
  induction elems with
  | nil => intro d m; rfl
  | cons v rest ih =>
    intro d m
    simp [walkElems, List.flatMap, ih]

/-- Every depth recorded by the annotated walk is at least the entry depth. -/
theorem walkAnnot_depth_ge : ∀ (t : Json) (c : Int), ∀ x ∈ walkAnnot t c, c ≤ x.2 := by
  intro t
  induction t using Json.treeInd with
  | hnull => intro c x hx; cases hx
  | hbool b => intro c x hx; cases hx
  | hnum n => intro c x hx; cases hx
  | hstr s => intro c x hx; cases hx
  | hobj fields ih =>
    intro c x hx
    rcases List.mem_cons.mp hx with heq | htail
    · subst heq; exact le_refl c
    · rw [walkAnnotFields_bind] at htail
      obtain ⟨kv, hkv, hmem⟩ := List.mem_flatMap.mp htail
      have := ih kv hkv (c + 1) x hmem
      omega
  | harr elems ih =>
    intro c x hx
    change x ∈ walkAnnotElems elems c at hx
    rw [walkAnnotElems_bind] at hx
    obtain ⟨v, hv, hmem⟩ := List.mem_flatMap.mp hx
    exact ih v hv c x hmem

theorem filter_flatMap {α β : Type} (l : List α) (f : α → List β) (p : β → Bool) :
    (l.flatMap f).filter p = l.flatMap (fun a => (f a).filter p) := by
  induction l with
  | nil => rfl
  | cons a rest ih =>
    rw [List.flatMap_cons, List.flatMap_cons, List.filter_append, ih]

/-- The depth-bounded walk equals the depth-filtered annotated walk. -/
theorem inner_walk_eq_filter : ∀ (t : Json) (c d : Int), 0 ≤ d →
    inner_walk_structures t c d =
      ((walkAnnot t c).filter (fun x => decide (x.2 ≤ d))).map Prod.fst := by
  intro t
  induction t using Json.treeInd with
  | hnull =>
    intro c d hd
    simp [inner_walk_structures, walkAnnot]
  | hbool b =>
    intro c d hd
    simp [inner_walk_structures, walkAnnot]
  | hnum n =>
    intro c d hd
    simp [inner_walk_structures, walkAnnot]
  | hstr s =>
    intro c d hd
    simp [inner_walk_structures, walkAnnot]
  | hobj fields ih =>
    intro c d hd
    by_cases hcd : d < c
    · have hcut : inner_walk_structures (Json.obj fields) c d = [] := by
        unfold inner_walk_structures
        rw [if_pos ⟨by omega, hcd⟩]
      rw [hcut]
      symm
      rw [List.map_eq_nil_iff, List.filter_eq_nil_iff]
      intro x hx
      have := walkAnnot_depth_ge (Json.obj fields) c x hx
      simp only [decide_eq_true_eq]
      omega
    · push_neg at hcd
      have hcut : inner_walk_structures (Json.obj fields) c d =
          Json.obj fields :: walkFields fields c d := by
        unfold inner_walk_structures
        rw [if_neg (by omega)]
      rw [hcut, walkAnnot, walkFields_bind, walkAnnotFields_bind]
      rw [List.filter_cons_of_pos (by simp; omega)]
      rw [List.map_cons]
      congr 1
      rw [filter_flatMap, List.map_flatMap]
      refine List.flatMap_congr ?_
      intro kv hkv
      exact ih kv hkv (c + 1) d hd
  | harr elems ih =>
    intro c d hd
    by_cases hcd : d < c
    · have hcut : inner_walk_structures (Json.arr elems) c d = [] := by
        unfold inner_walk_structures
        rw [if_pos ⟨by omega, hcd⟩]
      rw [hcut]
      symm
      rw [List.map_eq_nil_iff, List.filter_eq_nil_iff]
      intro x hx
      have := walkAnnot_depth_ge (Json.arr elems) c x hx
      simp only [decide_eq_true_eq]
      omega
    · push_neg at hcd
      have hcut : inner_walk_structures (Json.arr elems) c d = walkElems elems c d := by
        unfold inner_walk_structures
        rw [if_neg (by omega)]
      rw [hcut]
      show _ = ((walkAnnotElems elems c).filter _).map _
      rw [walkElems_bind, walkAnnotElems_bind, filter_flatMap, List.map_flatMap]
      refine List.flatMap_congr ?_
      intro v hv
      exact ih v hv c d hd

/-- The unbounded walk equals the annotated walk with depths dropped. -/
theorem inner_walk_unbounded : ∀ (t : Json) (c : Int),
    inner_walk_structures t c (-1) = (walkAnnot t c).map Prod.fst := by
  intro t
  induction t using Json.treeInd with
  | hnull => intro c; rfl
  | hbool b => intro c; rfl
  | hnum n => intro c; rfl
  | hstr s => intro c; rfl
  | hobj fields ih =>
    intro c
    have hcut : inner_walk_structures (Json.obj fields) c (-1) =
        Json.obj fields :: walkFields fields c (-1) := by
      unfold inner_walk_structures
      rw [if_neg (by simp)]
    rw [hcut, walkAnnot, List.map_cons, walkFields_bind, walkAnnotFields_bind, List.map_flatMap]
    congr 1
    refine List.flatMap_congr ?_
    intro kv hkv
    exact ih kv hkv (c + 1)
  | harr elems ih =>
    intro c
    have hcut : inner_walk_structures (Json.arr elems) c (-1) = walkElems elems c (-1) := by
      unfold inner_walk_structures
      rw [if_neg (by simp)]
    rw [hcut]
    show _ = (walkAnnotElems elems c).map _
    rw [walkElems_bind, walkAnnotElems_bind, List.map_flatMap]
    refine List.flatMap_congr ?_
    intro v hv
    exact ih v hv c

/-- C5: for every tree and every non-negative bound `d`, the depth-bounded
walk is exactly the subsequence of the unbounded walk consisting of the
objects whose object-nesting depth (incremented only on dict-to-value
descents, with arrays transparent, as `walkAnnot` records) is at most `d`. -/
theorem walk_structures_depth_relation (t : Json) (d : Int) (hd : 0 ≤ d) :
    walk_structures t d =
      ((walkAnnot t 0).filter (fun x => decide (x.2 ≤ d))).map Prod.fst ∧
    walk_structures t (-1) = (walkAnnot t 0).map Prod.fst :=
  ⟨inner_walk_eq_filter t 0 d hd, inner_walk_unbounded t 0⟩

/-- Witness for C5 at the scenario tree with `d = 0`: only the root object
survives the filter. -/
theorem walk_structures_depth_relation_witness :
    walk_structures scenarioTree 0 =
      ((walkAnnot scenarioTree 0).filter (fun x => decide (x.2 ≤ 0))).map Prod.fst ∧
    walk_structures scenarioTree (-1) = (walkAnnot scenarioTree 0).map Prod.fst :=
  walk_structures_depth_relation scenarioTree 0 (by decide)

/-!
## KeyQuery: a regex engine and `query_keys` (C6)

`query_keys` compiles its pattern with `re.compile` and, for every
`(path, value)` pair from `flatten`, attempts `re.fullmatch` of the pattern
against the path; on success it yields `match.group(len(match.groups()))` —
the text of the highest-numbered capturing group (Python `None`, modelled as
`none`, when that group did not participate), or the whole matched path when
the pattern has no capturing group — paired with the value.  The engine below
implements the backtracking semantics of Python `re` for the construct subset
the claims exercise: literal characters, `.` (any character except a newline),
greedy `*`, concatenation and numbered capturing groups.
-/

/-- Regular expressions over the constructs used by the claims. -/
inductive RE where
  | epsilon : RE
  | ch (c : Char) : RE
  | anyChar : RE
  | seq (a b : RE) : RE
  | star (a : RE) : RE
  | grp (idx : Nat) (a : RE) : RE

/-- `len(match.groups())`: the number of capturing groups of the pattern
(groups are numbered 1.. in order of their opening parenthesis, so this is the
highest group number). -/
def numGroups : RE → Nat
  | .epsilon => 0
  | .ch _ => 0
  | .anyChar => 0
  | .seq a b => max (numGroups a) (numGroups b)
  | .star a => numGroups a
  | .grp i a => max i (numGroups a)

/-- Node count, used only to provision backtracking fuel. -/
def reSize : RE → Nat
  | .epsilon => 1
  | .ch _ => 1
  | .anyChar => 1
  | .seq a b => reSize a + reSize b + 1
  | .star a => reSize a + 1
  | .grp _ a => reSize a + 1

/-- Backtracking matcher in continuation-passing style, following the
alternative order of Python's engine (greedy `*`: one more iteration is tried
before stopping).  `caps` records captures, most recent first.  The fuel only
bounds recursion depth; `re_fullmatch` provisions enough of it that the
concrete evaluations below are exact. -/
def reMatch {α : Type} : Nat → RE → List Char → List (Nat × List Char) →
    (List Char → List (Nat × List Char) → Option α) → Option α
  | 0, _, _, _, _ => none
  | _ + 1, .epsilon, cs, caps, k => k cs caps
  | _ + 1, .ch c, cs, caps, k =>
    match cs with
    | c2 :: rest => if c2 = c then k rest caps else none
    | [] => none
  | _ + 1, .anyChar, cs, caps, k =>
    match cs with
    | c2 :: rest => if c2 = '\n' then none else k rest caps
    | [] => none
  | fuel + 1, .seq a b, cs, caps, k =>
    reMatch fuel a cs caps (fun cs2 caps2 => reMatch fuel b cs2 caps2 k)
  | fuel + 1, .star a, cs, caps, k =>
    match reMatch fuel a cs caps
        (fun cs2 caps2 => reMatch fuel (.star a) cs2 caps2 k) with
    | some r => some r
    | none => k cs caps
  | fuel + 1, .grp idx a, cs, caps, k =>
    reMatch fuel a cs caps
      (fun cs2 caps2 => k cs2 ((idx, cs.take (cs.length - cs2.length)) :: caps2))

/-- `re.fullmatch(pattern, s)`: succeed only if the whole string is consumed;
returns the capture list of the first (leftmost-greedy) full match. -/
def re_fullmatch (r : RE) (s : String) : Option (List (Nat × List Char)) :=
  reMatch ((reSize r + 2) * (s.length + 2)) r s.toList []
    (fun rest caps => if rest = [] then some caps else none)

/-- `match.group(len(match.groups()))`: the most recent text captured by the
highest-numbered group (`none` models Python `None` for a group that did not
participate), or the whole matched string when the pattern has no groups
(group 0 of a fullmatch is the entire input). -/
def lastGroupOfMatch (r : RE) (s : String) (caps : List (Nat × List Char)) :
    Option String :=
  if numGroups r = 0 then some s
  else (caps.find? (fun x => x.1 == numGroups r)).map (fun x => String.mk x.2)

/-- Embedding of `query_keys(json_content, key_pattern)`: for each
`(path, value)` yielded by `flatten`, on a full match yield the last-group
text with the value. -/
def query_keys (json_content : Json) (r : RE) : List (Option String × Json) :=
  (flatten json_content "").filterMap
    (fun kv => (re_fullmatch r kv.1).map
      (fun caps => (lastGroupOfMatch r kv.1 caps, kv.2)))

/-- The pattern string `.*x`. -/
def patDotStarX : RE := .seq (.star .anyChar) (.ch 'x')

/-- The pattern string `.*/(x)`. -/
def patDotStarSlashGroupX : RE :=
  .seq (.star .anyChar) (.seq (.ch '/') (.grp 1 (.ch 'x')))

/-- C6: on the scenario tree, `query_keys` with `.*x` (no capturing group, so
the whole matched path is the reported key) yields exactly
`[("b/c[0]/x", 1), ("b/c[1]/x", 2)]`, and with `.*/(x)` (one capturing group,
whose text is the reported key) yields exactly `[("x", 1), ("x", 2)]`. -/
theorem query_keys_scenario :
    query_keys scenarioTree patDotStarX =
      [(some "b/c[0]/x", .num 1), (some "b/c[1]/x", .num 2)] ∧
    query_keys scenarioTree patDotStarSlashGroupX =
      [(some "x", .num 1), (some "x", .num 2)] := by
  exact ⟨by decide, by decide⟩

/-!
## StructureSearch: `search_by_keys` (C10)
-/

/-- Embedding of `search_by_keys(json_content, *key_patterns, all_=False)`:
for every dict from the unbounded `walk_structures`, run `query_keys` on that
dict for each pattern, record whether it produced anything (Python
`bool(dict(...))`, i.e. non-emptiness of the yielded pairs), and yield the
dict when `all`/`any` of the records holds. -/
def search_by_keys (json_content : Json) (key_patterns : List RE) (all_ : Bool) :
    List Json :=
  (walk_structures json_content (-1)).filter (fun json_struct =>
    let toCheck := key_patterns.map (fun p => !(query_keys json_struct p).isEmpty)
    if all_ then toCheck.all id else toCheck.any id)

/-- C10: with an empty pattern list, `search_by_keys` yields every dict of the
unbounded walk when `all_` is true (`all([])` is `True`: the empty conjunction
holds vacuously) and yields nothing when `all_` is false (`any([])` is
`False`: the empty disjunction never holds). -/
theorem search_by_keys_no_patterns (t : Json) :
    search_by_keys t [] true = walk_structures t (-1) ∧
    search_by_keys t [] false = [] := by
  constructor
  · show (walk_structures t (-1)).filter _ = _
    simp only [List.map_nil, List.all_nil, if_true]
    exact List.filter_true _
  · show (walk_structures t (-1)).filter _ = _
    simp only [List.map_nil, List.any_nil, if_false]
    exact List.filter_false _

/-!
## Editor: `edit`, `one_or_many`, `apply_mapping` (C8, C9)

`edit` iterates `walk_structures(json_value)` and mutates each yielded dict in
place: for every `(key, val)` in a snapshot `list(json_struct.items())` taken
before any mutation of that dict, when `matcher(key, val)` holds the key is
deleted (when `drop`) and every `(new_key, new_val)` from
`converter(key, val)` is assigned into the dict.  Because the walk generator
is lazy and creates the iterator over a dict's values only after yielding the
dict itself, the values it descends into afterwards are those of the
already-mutated dict.  The embedding is therefore the equivalent recursive
form: rewrite a dict's fields first, then recurse into the values of the
rewritten dict (and through array elements unchanged).  A converter can
splice in arbitrary new subtrees which the walk then visits, so the Python
loop need not terminate; the recursion carries fuel and returns `none` when
it runs out (the concrete evaluations below never do).
-/

/-- Python dict assignment `d[k] = v`: replace in place (keeping the key's
position) when the key is present, else append at the end. -/
def setKey : List (String × Json) → String → Json → List (String × Json)
  | [], k, v => [(k, v)]
  | (k1, v1) :: rest, k, v =>
    if k1 = k then (k, v) :: rest else (k1, v1) :: setKey rest k v

/-- Python `del d[k]`: remove the entry holding `k` (dict keys are unique). -/
def delKey : List (String × Json) → String → List (String × Json)
  | [], _ => []
  | (k1, v1) :: rest, k =>
    if k1 = k then rest else (k1, v1) :: delKey rest k

/-- Assign each produced `(new_key, new_val)` pair in order. -/
def spliceAll (st : List (String × Json)) (outs : List (String × Json)) :
    List (String × Json) :=
  outs.foldl (fun acc kv => setKey acc kv.1 kv.2) st

/-- One dict's rewrite in `edit`: iterate the snapshot, and for each matched
pair optionally delete the key and assign the converter's output pairs. -/
def editStepAux (matcher : String → Json → Bool)
    (converter : String → Json → List (String × Json)) (drop : Bool) :
    List (String × Json) → List (String × Json) → List (String × Json)
  | [], st => st
  | (k, v) :: rest, st =>
    if matcher k v then
      editStepAux matcher converter drop rest
        (spliceAll (if drop then delKey st k else st) (converter k v))
    else editStepAux matcher converter drop rest st

/-- The rewrite of one dict, snapshotting its own fields. -/
def editStep (matcher : String → Json → Bool)
    (converter : String → Json → List (String × Json)) (drop : Bool)
    (fields : List (String × Json)) : List (String × Json) :=
  editStepAux matcher converter drop fields fields

/-- Apply the recursive edit `g` to each value of a field list, keeping keys
and order; `none` as soon as one value fails (runs out of fuel). -/
def editEntriesGen (g : Json → Option Json) :
    List (String × Json) → Option (List (String × Json))
  | [] => some []
  | (k, v) :: rest =>
    match g v, editEntriesGen g rest with
    | some w, some rest2 => some ((k, w) :: rest2)
    | _, _ => none

/-- Apply the recursive edit `g` to each element of an array. -/
def editElemsGen (g : Json → Option Json) : List Json → Option (List Json)
  | [] => some []
  | v :: rest =>
    match g v, editElemsGen g rest with
    | some w, some rest2 => some (w :: rest2)
    | _, _ => none

/-- The recursion of `edit` over the walk order: rewrite a dict, then walk the
rewritten dict's values one level deeper; walk array elements; leave scalars
untouched.  Fuel is consumed on every composite descent. -/
def editRec (matcher : String → Json → Bool)
    (converter : String → Json → List (String × Json)) (drop : Bool) :
    Nat → Json → Option Json
  | fuel, t =>
    match t with
    | .obj fields =>
      match fuel with
      | 0 => none
      | f + 1 =>
        (editEntriesGen (fun v => editRec matcher converter drop f v)
          (editStep matcher converter drop fields)).map Json.obj
    | .arr elems =>
      match fuel with
      | 0 => none
      | f + 1 =>
        (editElemsGen (fun v => editRec matcher converter drop f v) elems).map Json.arr
    | _ => some t

/-- Embedding of `edit(json_value, matcher, converter, drop=True)`. -/
def edit (fuel : Nat) (json_value : Json) (matcher : String → Json → Bool)
    (converter : String → Json → List (String × Json)) (drop : Bool) :
    Option Json :=
  editRec matcher converter drop fuel json_value

/-- Embedding of the `one_or_many` decorator: raise
`TypeError(f'Invalid JSON: {type(json_content)}')` when the argument is
neither a list nor a dict; apply the wrapped function to each item of a list;
otherwise apply it to the dict itself.  The wrapped function carries fuel,
hence the inner `Option`. -/
def one_or_many (func : Json → Option Json) : Json → Except String (Option Json)
  | .arr items => .ok ((items.mapM func).map Json.arr)
  | .obj fields => .ok (func (.obj fields))
  | _ => .error "Invalid JSON"

/-- `json_struct[k]` lookup used by `apply_mapping`'s `key in json_struct`
test and read. -/
def getKey (st : List (String × Json)) (k : String) : Option Json :=
  (st.find? (fun kv => kv.1 == k)).map (fun kv => kv.2)

/-- One dict's rewrite in `apply_mapping`: for each `(key, function)` of the
mapping in mapping order, when the key is present replace its value with
`function(key, current_value)`. -/
def applyMappingStep (mapping : List (String × (String → Json → Json)))
    (fields : List (String × Json)) : List (String × Json) :=
  mapping.foldl (fun st km =>
    match getKey st km.1 with
    | some v => setKey st km.1 (km.2 km.1 v)
    | none => st) fields

/-- The recursion of `apply_mapping`'s body over the walk order, analogous to
`editRec`. -/
def applyMappingRec (mapping : List (String × (String → Json → Json))) :
    Nat → Json → Option Json
  | fuel, t =>
    match t with
    | .obj fields =>
      match fuel with
      | 0 => none
      | f + 1 =>
        ((applyMappingStep mapping fields).mapM
          (fun kv => (applyMappingRec mapping f kv.2).map
            (fun w => (kv.1, w)))).map Json.obj
    | .arr elems =>
      match fuel with
      | 0 => none
      | f + 1 => (elems.mapM (applyMappingRec mapping f)).map Json.arr
    | _ => some t

/-- Embedding of `apply_mapping` (which is decorated with `one_or_many`). -/
def apply_mapping (fuel : Nat) (json_content : Json)
    (obs_new_mapping : List (String × (String → Json → Json))) :
    Except String (Option Json) :=
  one_or_many (applyMappingRec obs_new_mapping fuel) json_content

/-- C8 counterexample: `edit` invoked on the scalar `5` raises nothing: the
walk over a scalar yields no dict, the loop body never runs, and the call is
a silent no-op returning the value unchanged — not a `TypeMismatchError`. -/
theorem edit_scalar_counterexample :
    edit 5 (Json.num 5) (fun _ _ => true) (fun k v => [(k, v)]) true
      = some (Json.num 5) := by rfl

/-- C8 amended: on a scalar, `apply_mapping` — whose `one_or_many` wrapper
checks the argument type before doing anything — raises `TypeError`
immediately with no mutation performed, while `edit` raises nothing at all
and performs no mutation: it returns the scalar unchanged. -/
theorem scalar_type_mismatch (t : Json) (ht : t.isScalar = true)
    (fuel : Nat) (mapping : List (String × (String → Json → Json)))
    (m : String → Json → Bool) (c : String → Json → List (String × Json))
    (drop : Bool) :
    apply_mapping fuel t mapping = .error "Invalid JSON" ∧
    edit fuel t m c drop = some t := by
  cases t <;> simp [Json.isScalar] at ht <;>
    exact ⟨rfl, by simp [edit, editRec]⟩

/-- Witness for C8 amended at the scalar `5`. -/
theorem scalar_type_mismatch_witness :
    apply_mapping 3 (Json.num 5) [] = .error "Invalid JSON" ∧
    edit 3 (Json.num 5) (fun _ _ => true) (fun k v => [(k, v)]) true
      = some (Json.num 5) :=
  scalar_type_mismatch (Json.num 5) (by decide) 3 []
    (fun _ _ => true) (fun k v => [(k, v)]) true

/-!
## C9: idempotence of `edit` under `drop=False`

The concrete matcher/converter pair below is idempotent on its own output,
yet editing twice differs from editing once: the first pass rewrites the
spliced subtree `{"b": 1}` into `{"b": 2}`, a value the converter never
produced, and the second pass reacts to that value by splicing `"z": 99`.
-/

def c9matcher : String → Json → Bool := fun k v =>
  k == "a" || (k == "b" && Json.beq v (.num 1)) || (k == "z" && Json.beq v (.num 99))

def c9converter : String → Json → List (String × Json) := fun k v =>
  if k = "a" then
    (if v = Json.obj [("b", .num 2)] then [("z", .num 99)]
     else [("a", Json.obj [("b", .num 1)])])
  else if k = "b" then [("b", .num 2)]
  else if k = "z" then [("z", .num 99)]
  else []

/-- The claim's hypothesis, for the concrete pair: the converter is idempotent
on its own output — every pair it produces from a matched input, when itself
matched, is mapped by the converter to exactly itself (so a second application
of the converter to its own output changes nothing). -/
def c9IdemOnOutput : Prop :=
  ∀ k v, c9matcher k v = true →
    ∀ kv ∈ c9converter k v, c9matcher kv.1 kv.2 = true →
      c9converter kv.1 kv.2 = [kv]

theorem c9IdemOnOutput_holds : c9IdemOnOutput := by
  intro k v hm kv hkv hm2
  have hm' : (k = "a" ∨ (k = "b" ∧ v = Json.num 1)) ∨ (k = "z" ∧ v = Json.num 99) := by
    simpa [c9matcher, Bool.or_eq_true, Bool.and_eq_true, beq_iff_eq,
      Json.beq_eq_true_iff] using hm
  rcases hm' with (hka | ⟨hkb, hv⟩) | ⟨hkz, hv⟩
  · subst hka
    by_cases hv2 : v = Json.obj [("b", .num 2)]
    · subst hv2
      have hconv : c9converter "a" (Json.obj [("b", .num 2)]) = [("z", .num 99)] := by rfl
      rw [hconv, List.mem_singleton] at hkv
      subst hkv
      rfl
    · have hconv : c9converter "a" v = [("a", Json.obj [("b", .num 1)])] := by
        have hstep : c9converter "a" v =
            if v = Json.obj [("b", .num 2)] then [("z", Json.num 99)]
            else [("a", Json.obj [("b", .num 1)])] := by
          simp [c9converter]
        rw [hstep, if_neg hv2]
      rw [hconv, List.mem_singleton] at hkv
      subst hkv
      rfl
  · subst hkb; subst hv
    have hconv : c9converter "b" (Json.num 1) = [("b", Json.num 2)] := by rfl
    rw [hconv, List.mem_singleton] at hkv
    subst hkv
    exact absurd hm2 (by decide)
  · subst hkz; subst hv
    have hconv : c9converter "z" (Json.num 99) = [("z", Json.num 99)] := by rfl
    rw [hconv, List.mem_singleton] at hkv
    subst hkv
    rfl

/-- C9 counterexample: with the matcher/converter above — idempotent on its
own output — and `drop=False`, editing `{"a": 5}` once yields
`{"a": {"b": 2}}`, but editing that result again yields
`{"a": {"b": 2}, "z": 99}`: applying `edit` twice does not equal applying it
once. -/
theorem edit_idempotence_counterexample :
    c9IdemOnOutput ∧
    edit 9 (Json.obj [("a", .num 5)]) c9matcher c9converter false
      = some (Json.obj [("a", Json.obj [("b", .num 2)])]) ∧
    edit 9 (Json.obj [("a", Json.obj [("b", .num 2)])]) c9matcher c9converter false
      ≠ some (Json.obj [("a", Json.obj [("b", .num 2)])]) :=
  ⟨c9IdemOnOutput_holds, by decide, by decide⟩

/-!
## C2: round-trip decomposition of `flatten` paths

The claim as stated quantifies over every tree; it fails when an object key
itself contains one of the reserved characters `/`, `[`, `]` (see the
counterexample below).  The amended claim restricts to trees whose keys avoid
those characters — the `segment` grammar of the specification — and is proved
here: every path `flatten` yields decomposes without failure and the key
component is the final `/`-separated segment of the path.
-/

/-- A key fit for the flattened-path grammar: none of `/`, `[`, `]`. -/
def goodKey (k : String) : Bool := k.toList.all keyChar

mutual

/-- Every object key anywhere in the tree is a `goodKey`. -/
def Json.goodKeys : Json → Bool
  | .obj fields => fieldsGoodKeys fields
  | .arr elems => elemsGoodKeys elems
  | _ => true

def fieldsGoodKeys : List (String × Json) → Bool
  | [] => true
  | (k, v) :: rest => goodKey k && Json.goodKeys v && fieldsGoodKeys rest

def elemsGoodKeys : List Json → Bool
  | [] => true
  | v :: rest => Json.goodKeys v && elemsGoodKeys rest

end

/-- The final `/`-separated component of a list of characters. -/
def lastSeg (l : List Char) : List Char :=
  (l.reverse.takeWhile (fun c => !(c = '/'))).reverse

/-- The specification's "final key/index segment" of a flattened path: the
text after the last `/` (the whole path when there is no `/`) — the paths
`flatten` produces always end in an object key. -/
def finalSegment (p : String) : String := String.mk (lastSeg p.toList)

theorem keyChar_ne_slash {c : Char} (h : keyChar c = true) : ¬(c = '/') := by
  simp only [keyChar, Bool.not_eq_true', Bool.or_eq_false_iff, decide_eq_false_iff_not] at h
  exact h.1.1

theorem takeWhile_all_stop {p : Char → Bool} {as bs : List Char} {b : Char}
    (ha : ∀ a ∈ as, p a = true) (hb : p b = false) :
    (as ++ b :: bs).takeWhile p = as := by
  induction as with
  | nil => simp [List.takeWhile_cons, hb]
  | cons a rest ih =>
    simp only [List.cons_append, List.takeWhile_cons, ha a (by simp), if_true]
    rw [ih (fun x hx => ha x (by simp [hx]))]

/-- The final segment of `ys ++ '/' :: zs` is `zs` when `zs` is slash-free. -/
theorem lastSeg_append_slash {ys zs : List Char} (hz : ∀ c ∈ zs, ¬(c = '/')) :
    lastSeg (ys ++ '/' :: zs) = zs := by
  unfold lastSeg
  rw [List.reverse_append, List.reverse_cons, List.append_assoc,
    List.singleton_append]
  rw [takeWhile_all_stop (p := fun c => !(c = '/'))
    (fun a ha => by simp [hz a (List.mem_reverse.mp ha)]) (by simp)]
  exact List.reverse_reverse zs

/-- The final segment of a slash-free list is the list itself. -/
theorem lastSeg_of_no_slash {zs : List Char} (hz : ∀ c ∈ zs, ¬(c = '/')) :
    lastSeg zs = zs := by
  unfold lastSeg
  rw [List.takeWhile_eq_self_iff.mpr (fun a ha => by simp [hz a (List.mem_reverse.mp ha)])]
  exact List.reverse_reverse zs

theorem all_keyChar_ne_slash {k : List Char} (hk : k.all keyChar = true) :
    ∀ c ∈ k, ¬(c = '/') :=
  fun c hc => keyChar_ne_slash (List.all_eq_true.mp hk c hc)

theorem tailMatch_shape {cs k : List Char} (h : tailMatch cs = some k) :
    (cs = '/' :: k ∨ cs = k) ∧ k.all keyChar = true := by
  cases cs with
  | nil =>
    simp only [tailMatch, Option.some.injEq] at h
    subst h
    exact ⟨Or.inr rfl, rfl⟩
  | cons c rest =>
    by_cases hc : c = '/'
    · subst hc
      simp only [tailMatch, if_pos rfl] at h
      by_cases hall : rest.all keyChar
      · rw [if_pos hall] at h
        cases h
        exact ⟨Or.inl rfl, hall⟩
      · rw [if_neg hall] at h
        cases h
    · simp only [tailMatch, if_neg hc] at h
      by_cases hall : (c :: rest).all keyChar
      · rw [if_pos hall] at h
        cases h
        exact ⟨Or.inr rfl, hall⟩
      · rw [if_neg hall] at h
        cases h

theorem bracketAfter_shape {tl ds rest : List Char}
    (h : bracketAfter tl = some (ds, rest)) :
    tl = ds ++ ']' :: rest ∧ ∀ c ∈ ds, c.isDigit = true := by
  unfold bracketAfter at h
  split at h
  · cases h
  · rename_i ds' rest2 hdrop hne
    injection h with h2
    injection h2 with hds hrest
    subst hds
    subst hrest
    constructor
    · have hsplit := List.takeWhile_append_dropWhile (p := Char.isDigit) (l := tl)
      rw [hdrop] at hsplit
      exact hsplit.symm
    · intro c2 hc2
      exact List.mem_takeWhile_imp hc2
  · cases h

theorem bracketParse_shape {cs ds rest : List Char}
    (h : bracketParse cs = some (ds, rest)) :
    cs = '[' :: (ds ++ ']' :: rest) ∧ ∀ c ∈ ds, c.isDigit = true := by
  cases cs with
  | nil => cases h
  | cons c tl =>
    simp only [bracketParse] at h
    by_cases hc : c = '['
    · rw [if_pos hc] at h
      obtain ⟨htl, hds⟩ := bracketAfter_shape h
      subst hc
      rw [htl]
      exact ⟨rfl, hds⟩
    · rw [if_neg hc] at h
      cases h

theorem matchAt_shape {cs : List Char} {i : Option Nat} {k : List Char}
    (h : matchAt cs = some (i, k)) :
    ∃ b s, cs = b ++ s ++ k ∧ (∀ c ∈ b, ¬(c = '/')) ∧ (s = [] ∨ s = ['/']) ∧
      k.all keyChar = true := by
  unfold matchAt at h
  split at h
  · rename_i ds rest heq
    rcases ht : tailMatch rest with _ | k0
    · rw [ht] at h
      cases h
    · rw [ht] at h
      have h2 : (some (some (digitsToNat ds), k0) : Option (Option Nat × List Char))
          = some (i, k) := h
      injection h2 with h3
      injection h3 with hi hk
      subst hk
      obtain ⟨hbr, hds⟩ := bracketParse_shape heq
      obtain ⟨hrest, hall⟩ := tailMatch_shape ht
      have hbmem : ∀ c ∈ '[' :: (ds ++ [']']), ¬(c = '/') := by
        intro c hcmem
        rcases List.mem_cons.mp hcmem with hceq | hcmem2
        · subst hceq; decide
        · rcases List.mem_append.mp hcmem2 with hdm | hcl
          · have hdig := hds c hdm
            intro hslash
            subst hslash
            exact absurd hdig (by decide)
          · simp only [List.mem_singleton] at hcl
            subst hcl; decide
      rcases hrest with hrest | hrest
      · refine ⟨'[' :: (ds ++ [']']), ['/'], ?_, hbmem, Or.inr rfl, hall⟩
        rw [hbr, hrest]
        simp
      · refine ⟨'[' :: (ds ++ [']']), [], ?_, hbmem, Or.inl rfl, hall⟩
        rw [hbr, hrest]
        simp
  · rename_i heq
    rcases ht : tailMatch cs with _ | k0
    · rw [ht] at h
      cases h
    · rw [ht] at h
      have h2 : (some ((none : Option Nat), k0) : Option (Option Nat × List Char))
          = some (i, k) := h
      injection h2 with h3
      injection h3 with hi hk
      subst hk
      obtain ⟨hcs, hall⟩ := tailMatch_shape ht
      rcases hcs with hcs | hcs
      · exact ⟨[], ['/'], by simpa using hcs, by simp, Or.inr rfl, hall⟩
      · exact ⟨[], [], by simpa using hcs, by simp, Or.inl rfl, hall⟩

/-- Scanning `xs ++ '/' :: k` with a key-clean `k` always finds a match whose
key group is exactly `k`. -/
theorem reSearch_append_slash {k : List Char} (hk : k.all keyChar = true) :
    ∀ xs : List Char, ∃ pre i, reSearch (xs ++ '/' :: k) = some (pre, i, k) := by
  intro xs
  induction xs with
  | nil =>
    have hmt : matchAt ('/' :: k) = some (none, k) := by
      have hbp : bracketParse ('/' :: k) = none := by
        simp [bracketParse]
      have htm : tailMatch ('/' :: k) = some k := by
        simp [tailMatch, hk]
      unfold matchAt
      rw [hbp, htm]
      rfl
    exact ⟨[], none, by simp [reSearch, hmt]⟩
  | cons c rest ih =>
    rcases hma : matchAt (c :: rest ++ '/' :: k) with _ | ⟨i, k0⟩
    · obtain ⟨pre, i, hpre⟩ := ih
      refine ⟨c :: pre, i, ?_⟩
      have : reSearch (c :: (rest ++ '/' :: k)) =
          (reSearch (rest ++ '/' :: k)).map (fun r => (c :: r.1, r.2.1, r.2.2)) := by
        simp only [reSearch]
        rw [show matchAt (c :: (rest ++ '/' :: k)) = none from hma]
      rw [show (c :: rest) ++ '/' :: k = c :: (rest ++ '/' :: k) from rfl, this, hpre]
      rfl
    · obtain ⟨b, sep, hcs, hb, hsep, hall⟩ := matchAt_shape hma
      have hk0 : k0 = k := by
        have h1 : lastSeg (c :: rest ++ '/' :: k) = k :=
          lastSeg_append_slash (all_keyChar_ne_slash hk)
        rcases hsep with hsep | hsep
        · -- separator empty: the whole right-hand side is slash-free, but the
          -- left-hand side contains the '/' before k — contradiction
        
          exfalso
          have hsl : '/' ∈ c :: rest ++ '/' :: k := by simp
          rw [hcs, hsep] at hsl
          simp only [List.append_nil, List.mem_append] at hsl
          rcases hsl with hsl | hsl
          · exact hb _ hsl rfl
          · exact all_keyChar_ne_slash hall _ hsl rfl
        · have h2 : lastSeg (b ++ sep ++ k0) = k0 := by
            rw [hsep, List.append_assoc]
            exact lastSeg_append_slash (all_keyChar_ne_slash hall)
          rw [← hcs] at h2
          rw [h1] at h2
          exact h2.symm
      subst hk0
      refine ⟨[], i, ?_⟩
      rw [List.cons_append] at hma
      rw [List.cons_append]
      simp only [reSearch]
      rw [hma]

/-- A key-clean string matches at position 0 with itself as the key group. -/
theorem reSearch_clean {k : List Char} (hk : k.all keyChar = true) :
    ∃ i, reSearch k = some ([], i, k) := by
  have hmt : matchAt k = some (none, k) := by
    have hbp : bracketParse k = none := by
      cases k with
      | nil => rfl
      | cons c rest =>
        have hc : ¬(c = '[') := by
          have := List.all_eq_true.mp hk c (by simp)
          simp only [keyChar, Bool.not_eq_true', Bool.or_eq_false_iff,
            decide_eq_false_iff_not] at this
          exact this.1.2
        simp [bracketParse, hc]
    have htm : tailMatch k = some k := by
      cases k with
      | nil => rfl
      | cons c rest =>
        have hc : ¬(c = '/') := by
          have := List.all_eq_true.mp hk c (by simp)
          exact keyChar_ne_slash this
        simp [tailMatch, hc, hk]
    unfold matchAt
    rw [hbp, htm]
    rfl
  cases k with
  | nil => exact ⟨none, by simp [reSearch, hmt]⟩
  | cons c rest => exact ⟨none, by simp [reSearch, hmt]⟩

/-- The shape of every path yielded by `flatten` on a tree with good keys:
it is either a single good key (top level, empty prefix) or ends in
`/key` for a good key. -/
def pathShape (p : String) : Prop :=
  ∃ k : String, goodKey k = true ∧
    (p.toList = k.toList ∨ ∃ xs, p.toList = xs ++ '/' :: k.toList)

theorem strToList_append (s t : String) : (s ++ t).toList = s.toList ++ t.toList :=
  String.data_append s t

theorem extendPath_toList (pfx k : String) :
    (extendPath pfx k).toList = k.toList ∨
      (extendPath pfx k).toList = pfx.toList ++ '/' :: k.toList := by
  unfold extendPath
  by_cases h : pfx = ""
  · left
    rw [if_pos h]
    simp
  · right
    rw [if_neg h, strToList_append, strToList_append]
    rw [show ("/" : String).toList = ['/'] from rfl, List.append_assoc,
      List.singleton_append]

theorem extendPath_pathShape (pfx k : String) (hk : goodKey k = true) :
    pathShape (extendPath pfx k) := by
  rcases extendPath_toList pfx k with h | h
  · exact ⟨k, hk, Or.inl h⟩
  · exact ⟨k, hk, Or.inr ⟨pfx.toList, h⟩⟩

theorem flatten_pathShape :
    ∀ t : Json, Json.goodKeys t = true →
      ∀ pfx p v, (p, v) ∈ flatten t pfx → pathShape p := by
  intro t
  induction t using Json.treeInd with
  | hnull => intro _ pfx p v hp; simp [flatten] at hp
  | hbool b => intro _ pfx p v hp; simp [flatten] at hp
  | hnum n => intro _ pfx p v hp; simp [flatten] at hp
  | hstr s => intro _ pfx p v hp; simp [flatten] at hp
  | hobj fields ih =>
    intro hg pfx p v hp
    have hg' : fieldsGoodKeys fields = true := hg
    have hp' : (p, v) ∈ flattenFields fields pfx := hp
    clear hg hp
    have main : ∀ (l : List (String × Json)),
        (∀ kv ∈ l, Json.goodKeys kv.2 = true →
          ∀ pfx2 p2 v2, (p2, v2) ∈ flatten kv.2 pfx2 → pathShape p2) →
        fieldsGoodKeys l = true →
        ∀ (pfx2 p2 : String) (v2 : Json),
          (p2, v2) ∈ flattenFields l pfx2 → pathShape p2 := by
      intro l
      induction l with
      | nil => intro _ _ pfx2 p2 v2 hmem; simp [flattenFields] at hmem
      | cons kv restl ihl =>
        intro ihm hgl pfx2 p2 v2 hmem
        obtain ⟨k0, v0⟩ := kv
        have hsplit : goodKey k0 = true ∧ Json.goodKeys v0 = true ∧
            fieldsGoodKeys restl = true := by
          simpa [fieldsGoodKeys, Bool.and_eq_true, and_assoc] using hgl
        obtain ⟨hgk, hgv, hgr⟩ := hsplit
        simp only [flattenFields, List.cons_append, List.mem_cons,
          List.mem_append] at hmem
        rcases hmem with hhead | hrec | htail
        · have hpe : p2 = extendPath pfx2 k0 := by
            simpa using congrArg Prod.fst hhead
          subst hpe
          exact extendPath_pathShape pfx2 k0 hgk
        · exact ihm (k0, v0) (by simp) hgv (extendPath pfx2 k0) p2 v2 hrec
        · exact ihl (fun kw hkw => ihm kw (by simp [hkw])) hgr pfx2 p2 v2 htail
    exact main fields (fun kv hkv => ih kv hkv) hg' pfx p v hp' 
  | harr elems ih =>
    intro hg pfx p v hp
    have hg' : elemsGoodKeys elems = true := hg
    have hp' : (p, v) ∈ flattenElems elems pfx 0 := hp
    clear hg hp
    
    have main : ∀ (l : List Json), (∀ x ∈ l, Json.goodKeys x = true →
        ∀ pfx2 p2 v2, (p2, v2) ∈ flatten x pfx2 → pathShape p2) →
        elemsGoodKeys l = true →
        ∀ (pfx2 : String) (i : Nat) (p2 : String) (v2 : Json),
          (p2, v2) ∈ flattenElems l pfx2 i → pathShape p2 := by
      intro l
      induction l with
      | nil => intro _ _ pfx2 i p2 v2 hmem; simp [flattenElems] at hmem
      | cons x restl ihl =>
        intro ihm hgl pfx2 i p2 v2 hmem
        have hsplit : Json.goodKeys x = true ∧ elemsGoodKeys restl = true := by
          simpa [elemsGoodKeys, Bool.and_eq_true] using hgl
        simp only [flattenElems, List.mem_append] at hmem
        rcases hmem with hx | hrest
        · exact ihm x (by simp) hsplit.1 _ p2 v2 hx
        · exact ihl (fun y hy => ihm y (by simp [hy])) hsplit.2 pfx2 (i + 1) p2 v2 hrest
    exact main elems (fun x hx => ih x hx) hg' pfx 0 p v hp'

/-- C2 amended: for every tree whose object keys contain none of `/`, `[`,
`]`, every `(path, value)` pair yielded by `flatten` has a path on which
`decompose_flatten_path` succeeds, and the key component it returns is the
final key segment of the path. -/
theorem decompose_ok_key {p : String} {pre : List Char} {i : Option Nat}
    {k : List Char} (h : reSearch p.toList = some (pre, i, k)) :
    ∃ pr, decompose_flatten_path p = .ok (pr, i, String.mk k) := by
  unfold decompose_flatten_path
  rw [h]
  exact ⟨_, rfl⟩

theorem decompose_flatten_roundtrip (t : Json) (ht : Json.goodKeys t = true)
    (p : String) (v : Json) (hp : (p, v) ∈ flatten t "") :
    ∃ pre i, decompose_flatten_path p = .ok (pre, i, finalSegment p) := by
  obtain ⟨k, hgk, hshape⟩ := flatten_pathShape t ht "" p v hp
  have hkall : k.toList.all keyChar = true := hgk
  rcases hshape with hflat | ⟨xs, hflat⟩
  · obtain ⟨i, hsearch⟩ := reSearch_clean (k := k.toList) hkall
    rw [← hflat] at hsearch
    obtain ⟨pr, hok⟩ := decompose_ok_key hsearch
    have hfinal : finalSegment p = String.mk p.toList := by
      unfold finalSegment
      rw [hflat, lastSeg_of_no_slash (all_keyChar_ne_slash hkall), ← hflat]
    exact ⟨pr, i, by rw [hok, hfinal]⟩
  · obtain ⟨pre, i, hsearch⟩ := reSearch_append_slash hkall xs
    rw [← hflat] at hsearch
    obtain ⟨pr, hok⟩ := decompose_ok_key hsearch
    have hfinal : finalSegment p = String.mk k.toList := by
      unfold finalSegment
      rw [hflat, lastSeg_append_slash (all_keyChar_ne_slash hkall)]
    exact ⟨pr, i, by rw [hok, hfinal]⟩

/-- Witness for C2 amended at the scenario tree and its deepest path. -/
theorem decompose_flatten_roundtrip_witness :
    ∃ pre i, decompose_flatten_path "b/c[0]/x" = .ok (pre, i, finalSegment "b/c[0]/x") :=
  decompose_flatten_roundtrip scenarioTree (by decide) "b/c[0]/x" (.num 1) (by decide)

/-- C2 counterexample: on the tree `{"a/b": 1}` — a legal Python dict —
`flatten` yields the pair `("a/b", 1)` whose final JSON key segment is the
whole dict key `"a/b"`, but `decompose_flatten_path "a/b"` returns key
`"b"`. -/
theorem decompose_roundtrip_counterexample :
    flatten (Json.obj [("a/b", .num 1)]) "" = [("a/b", .num 1)] ∧
    decompose_flatten_path "a/b" = .ok ("a/b", none, "b") ∧
    ("b" : String) ≠ "a/b" :=
  ⟨by decide, by rfl, by decide⟩

/-!
## C9 amended: machinery about `setKey`, `spliceAll` and the edit step

The counterexample shows the claim fails for value-sensitive converters; the
amended claim (proved below as `edit_twice_eq_once`) holds when the matcher
and converter depend only on the key, the converter is idempotent on its own
output in the sense that every matched output pair is mapped to exactly
itself, and converter outputs carry well-formed (duplicate-free) objects.
-/

/-- The keys of an object, in order. -/
def keysOf (st : List (String × Json)) : List String := st.map Prod.fst

/-- First-occurrence lookup, Python `d[k]` on the modelled dict. -/
def lookupKey : List (String × Json) → String → Option Json
  | [], _ => none
  | (k1, v) :: rest, k => if k1 = k then some v else lookupKey rest k

theorem setKey_keys (st : List (String × Json)) (k : String) (v : Json) :
    keysOf (setKey st k v) =
      if k ∈ keysOf st then keysOf st else keysOf st ++ [k] := by
  induction st with
  | nil => simp [setKey, keysOf]
  | cons kv rest ih =>
    obtain ⟨k1, v1⟩ := kv
    by_cases hk : k1 = k
    · subst hk
      simp [setKey, keysOf]
    · simp only [setKey, if_neg hk, keysOf, List.map_cons] at ih ⊢
      by_cases hmem : k ∈ List.map Prod.fst rest
      · rw [ih, if_pos hmem, if_pos (List.mem_cons_of_mem _ hmem)]
      · have hnot : ¬(k ∈ k1 :: List.map Prod.fst rest) := fun hcon =>
          (List.mem_cons.mp hcon).elim (fun h => hk h.symm) hmem
        rw [ih, if_neg hmem, if_neg hnot]
        simp

theorem setKey_lookup (st : List (String × Json)) (k : String) (v : Json)
    (k2 : String) :
    lookupKey (setKey st k v) k2 = if k2 = k then some v else lookupKey st k2 := by
  induction st with
  | nil =>
    simp only [setKey, lookupKey]
    by_cases h : k = k2
    · subst h; simp
    · rw [if_neg h, if_neg (fun h2 => h h2.symm)]
  | cons kv rest ih =>
    obtain ⟨k1, v1⟩ := kv
    by_cases hk : k1 = k
    · subst hk
      simp only [setKey, if_pos rfl, lookupKey]
      by_cases h2 : k1 = k2
      · rw [if_pos h2, if_pos h2.symm]
      · rw [if_neg h2, if_neg (fun h => h2 h.symm), if_neg h2]
    · simp only [setKey, if_neg hk, lookupKey]
      by_cases h2 : k1 = k2
      · have hne : ¬(k2 = k) := fun h => hk (h2.trans h)
        rw [if_pos h2, if_neg hne, if_pos h2]
      · rw [if_neg h2, ih, if_neg h2]

theorem setKey_mem {st : List (String × Json)} {k : String} {v : Json}
    {e : String × Json} (h : e ∈ setKey st k v) : e ∈ st ∨ e = (k, v) := by
  induction st with
  | nil => simpa [setKey] using h
  | cons kv rest ih =>
    obtain ⟨k1, v1⟩ := kv
    by_cases hk : k1 = k
    · subst hk
      rw [show setKey ((k1, v1) :: rest) k1 v = (k1, v) :: rest from by
        simp [setKey]] at h
      rcases List.mem_cons.mp h with h | h
      · exact Or.inr h
      · exact Or.inl (List.mem_cons_of_mem _ h)
    · rw [show setKey ((k1, v1) :: rest) k v = (k1, v1) :: setKey rest k v from by
        simp [setKey, hk]] at h
      rcases List.mem_cons.mp h with h | h
      · exact Or.inl (by simp [h])
      · rcases ih h with h2 | h2
        · exact Or.inl (List.mem_cons_of_mem _ h2)
        · exact Or.inr h2

theorem spliceAll_nil (st : List (String × Json)) : spliceAll st [] = st := rfl

theorem spliceAll_cons (st : List (String × Json)) (o : String × Json)
    (outs : List (String × Json)) :
    spliceAll st (o :: outs) = spliceAll (setKey st o.1 o.2) outs := rfl

theorem spliceAll_append (st A B : List (String × Json)) :
    spliceAll st (A ++ B) = spliceAll (spliceAll st A) B := by
  simp [spliceAll, List.foldl_append]

/-- The value the last assignment of `outs` leaves at key `k`, if any
(assignments later in the list win). -/
def lastWrite : List (String × Json) → String → Option Json
  | [], _ => none
  | o :: outs, k =>
    match lastWrite outs k with
    | some v => some v
    | none => if k = o.1 then some o.2 else none

theorem lastWrite_cons (o : String × Json) (outs : List (String × Json))
    (k : String) :
    lastWrite (o :: outs) k =
      match lastWrite outs k with
      | some v => some v
      | none => if k = o.1 then some o.2 else none := rfl

theorem lastWrite_append (A B : List (String × Json)) (k : String) :
    lastWrite (A ++ B) k =
      match lastWrite B k with
      | some u => some u
      | none => lastWrite A k := by
  induction A with
  | nil =>
    simp only [List.nil_append]
    cases h : lastWrite B k <;> simp [lastWrite]
  | cons o A ih =>
    simp only [List.cons_append, lastWrite_cons, ih]
    cases h : lastWrite B k <;> cases h2 : lastWrite A k <;>
      simp [lastWrite_cons, h2]

theorem lastWrite_mem {outs : List (String × Json)} {k : String} {u : Json}
    (h : lastWrite outs k = some u) : (k, u) ∈ outs := by
  induction outs with
  | nil => cases h
  | cons o rest ih =>
    rw [lastWrite_cons] at h
    cases h2 : lastWrite rest k with
    | some w =>
      rw [h2] at h
      cases h
      exact List.mem_cons_of_mem _ (ih h2)
    | none =>
      rw [h2] at h
      by_cases hk : k = o.1
      · rw [if_pos hk] at h
        cases h
        subst hk
        simp
      · rw [if_neg hk] at h
        cases h

theorem mem_lastWrite_isSome {outs : List (String × Json)} {k : String} {u : Json}
    (h : (k, u) ∈ outs) : ∃ w, lastWrite outs k = some w := by
  induction outs with
  | nil => cases h
  | cons o rest ih =>
    simp only [lastWrite]
    cases h2 : lastWrite rest k with
    | some w => exact ⟨w, rfl⟩
    | none =>
      rcases List.mem_cons.mp h with heq | hmem
      · rw [if_pos (by rw [← heq])]
        exact ⟨o.2, rfl⟩
      · obtain ⟨w, hw⟩ := ih hmem
        rw [h2] at hw
        cases hw

theorem spliceAll_lookup (outs : List (String × Json)) :
    ∀ (st : List (String × Json)) (k : String),
    lookupKey (spliceAll st outs) k =
      match lastWrite outs k with
      | some u => some u
      | none => lookupKey st k := by
  induction outs with
  | nil => intro st k; rfl
  | cons o rest ih =>
    intro st k
    rw [spliceAll_cons, ih]
    simp only [lastWrite]
    cases h : lastWrite rest k with
    | some u => rfl
    | none =>
      simp only [setKey_lookup]
      by_cases hk : k = o.1 <;> simp [hk]

theorem spliceAll_keys_mem (outs : List (String × Json)) :
    ∀ (st : List (String × Json)) (k : String),
    k ∈ keysOf (spliceAll st outs) ↔ k ∈ keysOf st ∨ k ∈ outs.map Prod.fst := by
  induction outs with
  | nil => intro st k; simp [spliceAll_nil]
  | cons o rest ih =>
    intro st k
    rw [spliceAll_cons, ih, setKey_keys]
    by_cases hmem : o.1 ∈ keysOf st
    · rw [if_pos hmem]
      simp only [List.map_cons, List.mem_cons]
      constructor
      · rintro (h | h)
        · exact Or.inl h
        · exact Or.inr (Or.inr h)
      · rintro (h | h | h)
        · exact Or.inl h
        · exact Or.inl (h ▸ hmem)
        · exact Or.inr h
    · rw [if_neg hmem]
      simp only [List.mem_append, List.mem_singleton, List.map_cons, List.mem_cons,
        List.not_mem_nil, or_false]
      constructor
      · rintro ((h | h) | h)
        · exact Or.inl h
        · exact Or.inr (Or.inl h)
        · exact Or.inr (Or.inr h)
      · rintro (h | h | h)
        · exact Or.inl (Or.inl h)
        · exact Or.inl (Or.inr h)
        · exact Or.inr h

theorem spliceAll_keys_decomp (outs : List (String × Json)) :
    ∀ st : List (String × Json), ∃ E : List String,
      keysOf (spliceAll st outs) = keysOf st ++ E ∧
      ∀ e ∈ E, e ∈ outs.map Prod.fst ∧ e ∉ keysOf st := by
  induction outs with
  | nil => intro st; exact ⟨[], by simp [spliceAll_nil], by simp⟩
  | cons o rest ih =>
    intro st
    rw [spliceAll_cons]
    by_cases hmem : o.1 ∈ keysOf st
    · obtain ⟨E, hE, hprop⟩ := ih (setKey st o.1 o.2)
      have hkeq : keysOf (setKey st o.1 o.2) = keysOf st := by
        rw [setKey_keys, if_pos hmem]
      refine ⟨E, by rw [hE, hkeq], ?_⟩
      intro e he
      obtain ⟨h1, h2⟩ := hprop e he
      rw [hkeq] at h2
      exact ⟨by simp [h1], h2⟩
    · obtain ⟨E, hE, hprop⟩ := ih (setKey st o.1 o.2)
      have hkeq : keysOf (setKey st o.1 o.2) = keysOf st ++ [o.1] := by
        rw [setKey_keys, if_neg hmem]
      refine ⟨o.1 :: E, ?_, ?_⟩
      · rw [hE, hkeq]
        simp
      · intro e he
        rcases List.mem_cons.mp he with heq | hmem2
        · subst heq
          exact ⟨by simp, hmem⟩
        · obtain ⟨h1, h2⟩ := hprop e hmem2
          rw [hkeq] at h2
          simp only [List.mem_append, List.mem_singleton] at h2
          exact ⟨by simp [h1], fun hc => h2 (Or.inl hc)⟩

theorem spliceAll_keys_nodup (outs : List (String × Json)) :
    ∀ st : List (String × Json), (keysOf st).Nodup →
      (keysOf (spliceAll st outs)).Nodup := by
  induction outs with
  | nil => intro st h; exact h
  | cons o rest ih =>
    intro st h
    rw [spliceAll_cons]
    refine ih _ ?_
    rw [setKey_keys]
    by_cases hmem : o.1 ∈ keysOf st
    · rw [if_pos hmem]; exact h
    · rw [if_neg hmem]
      exact List.Nodup.append h (List.nodup_singleton _) (by simpa using hmem)

theorem spliceAll_keys_of_subset (outs : List (String × Json)) :
    ∀ st : List (String × Json), (∀ o ∈ outs, o.1 ∈ keysOf st) →
      keysOf (spliceAll st outs) = keysOf st := by
  induction outs with
  | nil => intro st _; rfl
  | cons o rest ih =>
    intro st hsub
    rw [spliceAll_cons]
    have hkeq : keysOf (setKey st o.1 o.2) = keysOf st := by
      rw [setKey_keys, if_pos (hsub o (by simp))]
    rw [ih _ (fun o2 ho2 => by rw [hkeq]; exact hsub o2 (by simp [ho2])), hkeq]

theorem spliceAll_mem {outs st : List (String × Json)} {e : String × Json}
    (h : e ∈ spliceAll st outs) : e ∈ st ∨ e ∈ outs := by
  induction outs generalizing st with
  | nil => exact Or.inl h
  | cons o rest ih =>
    rw [spliceAll_cons] at h
    rcases ih h with h2 | h2
    · rcases setKey_mem h2 with h3 | h3
      · exact Or.inl h3
      · exact Or.inr (by simp [h3])
    · exact Or.inr (List.mem_cons_of_mem _ h2)

theorem lookupKey_mem_keys {st : List (String × Json)} {k : String} {v : Json}
    (h : lookupKey st k = some v) : k ∈ keysOf st := by
  induction st with
  | nil => cases h
  | cons kv rest ih =>
    obtain ⟨k1, v1⟩ := kv
    simp only [lookupKey] at h
    by_cases hk : k1 = k
    · subst hk; simp [keysOf]
    · rw [if_neg hk] at h
      simp only [keysOf, List.map_cons, List.mem_cons]
      exact Or.inr (ih h)

theorem mem_keys_lookupKey {st : List (String × Json)} {k : String}
    (h : k ∈ keysOf st) : ∃ v, lookupKey st k = some v := by
  induction st with
  | nil => cases h
  | cons kv rest ih =>
    obtain ⟨k1, v1⟩ := kv
    simp only [keysOf, List.map_cons, List.mem_cons] at h
    simp only [lookupKey]
    by_cases hk : k1 = k
    · exact ⟨v1, by rw [if_pos hk]⟩
    · rw [if_neg hk]
      exact ih (h.resolve_left (fun heq => hk heq.symm))

theorem lookupKey_mem {st : List (String × Json)} {k : String} {v : Json}
    (h : lookupKey st k = some v) : (k, v) ∈ st := by
  induction st with
  | nil => cases h
  | cons kv rest ih =>
    obtain ⟨k1, v1⟩ := kv
    simp only [lookupKey] at h
    by_cases hk : k1 = k
    · subst hk
      rw [if_pos rfl] at h
      cases h
      simp
    · rw [if_neg hk] at h
      exact List.mem_cons_of_mem _ (ih h)

/-- The sequence of `(new_key, new_val)` assignments one `editStep` performs:
the converter outputs of the matched snapshot pairs, in snapshot order. -/
def stepWrites (m : String → Json → Bool)
    (c : String → Json → List (String × Json))
    (snap : List (String × Json)) : List (String × Json) :=
  snap.flatMap (fun kv => if m kv.1 kv.2 then c kv.1 kv.2 else [])

theorem editStepAux_eq_spliceAll (m : String → Json → Bool)
    (c : String → Json → List (String × Json)) :
    ∀ (snap st : List (String × Json)),
      editStepAux m c false snap st = spliceAll st (stepWrites m c snap) := by
  intro snap
  induction snap with
  | nil => intro st; rfl
  | cons kv rest ih =>
    intro st
    obtain ⟨k, v⟩ := kv
    simp only [editStepAux, stepWrites, List.flatMap_cons]
    by_cases hm : m k v
    · rw [if_pos hm, if_pos hm, if_neg (by simp), spliceAll_append]
      exact ih _
    · rw [if_neg hm, if_neg hm]
      simp only [List.nil_append]
      exact ih st

theorem editStep_eq_spliceAll (m : String → Json → Bool)
    (c : String → Json → List (String × Json)) (fields : List (String × Json)) :
    editStep m c false fields = spliceAll fields (stepWrites m c fields) :=
  editStepAux_eq_spliceAll m c fields fields

/-- The writes determined by the keys alone, for key-only matcher/converter. -/
def stepWritesK (m : String → Json → Bool)
    (c : String → Json → List (String × Json)) (ks : List String) :
    List (String × Json) :=
  ks.flatMap (fun k => if m k Json.null then c k Json.null else [])

theorem stepWrites_eq_keysK (m : String → Json → Bool)
    (c : String → Json → List (String × Json))
    (hm : ∀ k v w, m k v = m k w) (hc : ∀ k v w, c k v = c k w) :
    ∀ snap : List (String × Json),
      stepWrites m c snap = stepWritesK m c (keysOf snap) := by
  intro snap
  induction snap with
  | nil => rfl
  | cons kv rest ih =>
    obtain ⟨k, v⟩ := kv
    simp only [stepWrites, stepWritesK, keysOf, List.map_cons, List.flatMap_cons]
    rw [hm k v Json.null, hc k v Json.null]
    simp only [stepWrites, stepWritesK, keysOf] at ih
    rw [ih]

theorem stepWritesK_append (m : String → Json → Bool)
    (c : String → Json → List (String × Json)) (A B : List String) :
    stepWritesK m c (A ++ B) = stepWritesK m c A ++ stepWritesK m c B := by
  simp [stepWritesK, List.flatMap_append]

theorem stepWritesK_mem {m : String → Json → Bool}
    {c : String → Json → List (String × Json)} {ks : List String}
    {o : String × Json} (h : o ∈ stepWritesK m c ks) :
    ∃ k ∈ ks, m k Json.null = true ∧ o ∈ c k Json.null := by
  simp only [stepWritesK, List.mem_flatMap] at h
  obtain ⟨k, hk, hmem⟩ := h
  by_cases hm : m k Json.null
  · rw [if_pos hm] at hmem
    exact ⟨k, hk, hm, hmem⟩
  · rw [if_neg hm] at hmem
    cases hmem

/-- Derived from the idempotence hypothesis: every write whose key is matched
is the unique way the converter handles that key. -/
theorem write_fixed {m : String → Json → Bool}
    {c : String → Json → List (String × Json)}
    (hm : ∀ k v w, m k v = m k w) (hc : ∀ k v w, c k v = c k w)
    (hH : ∀ k v, m k v = true → ∀ kv ∈ c k v, m kv.1 kv.2 = true →
      c kv.1 kv.2 = [kv])
    {ks : List String} {nk : String} {nv : Json}
    (h : (nk, nv) ∈ stepWritesK m c ks) (hmk : m nk Json.null = true) :
    c nk Json.null = [(nk, nv)] := by
  obtain ⟨k, _, hmks, hcmem⟩ := stepWritesK_mem h
  have := hH k Json.null hmks (nk, nv) hcmem (by rw [hm nk Json.null nv] at hmk; exact hmk)
  rw [hc nk Json.null nv]
  exact this

/-- Any two matched writes at the same key carry the same value. -/
theorem write_unique {m : String → Json → Bool}
    {c : String → Json → List (String × Json)}
    (hm : ∀ k v w, m k v = m k w) (hc : ∀ k v w, c k v = c k w)
    (hH : ∀ k v, m k v = true → ∀ kv ∈ c k v, m kv.1 kv.2 = true →
      c kv.1 kv.2 = [kv])
    {ks : List String} {nk : String} {nv nv2 : Json}
    (h1 : (nk, nv) ∈ stepWritesK m c ks) (h2 : (nk, nv2) ∈ stepWritesK m c ks)
    (hmk : m nk Json.null = true) : nv = nv2 := by
  have e1 := write_fixed hm hc hH h1 hmk
  have e2 := write_fixed hm hc hH h2 hmk
  rw [e1] at e2
  cases e2
  rfl

/-!
### Characterisation of `editEntriesGen` and `editElemsGen`
-/

theorem editEntriesGen_forall₂ (g : Json → Option Json) :
    ∀ (st st₁ : List (String × Json)),
      editEntriesGen g st = some st₁ ↔
        List.Forall₂ (fun kv kw => kv.1 = kw.1 ∧ g kv.2 = some kw.2) st st₁ := by
  intro st
  induction st with
  | nil =>
    intro st₁
    simp only [editEntriesGen]
    constructor
    · intro h; cases h; exact List.Forall₂.nil
    · intro h; cases h; rfl
  | cons kv rest ih =>
    intro st₁
    obtain ⟨k, v⟩ := kv
    simp only [editEntriesGen]
    constructor
    · intro h
      rcases hg : g v with _ | w <;> rw [hg] at h
      · cases h
      · rcases hr : editEntriesGen g rest with _ | rest2 <;> rw [hr] at h
        · cases h
        · cases h
          exact List.Forall₂.cons ⟨rfl, hg⟩ ((ih rest2).mp hr)
    · intro h
      cases h with
      | cons hhead htail =>
        rename_i kw rest2
        obtain ⟨hk, hg⟩ := hhead
        rw [hg, (ih rest2).mpr htail]
        obtain ⟨k2, w⟩ := kw
        simp only at hk
        rw [hk]
  
theorem editElemsGen_forall₂ (g : Json → Option Json) :
    ∀ (l l' : List Json),
      editElemsGen g l = some l' ↔ List.Forall₂ (fun x y => g x = some y) l l' := by
  intro l
  induction l with
  | nil =>
    intro l'
    simp only [editElemsGen]
    constructor
    · intro h; cases h; exact List.Forall₂.nil
    · intro h; cases h; rfl
  | cons x rest ih =>
    intro l'
    simp only [editElemsGen]
    constructor
    · intro h
      rcases hg : g x with _ | y <;> rw [hg] at h
      · cases h
      · rcases hr : editElemsGen g rest with _ | rest2 <;> rw [hr] at h
        · cases h
        · cases h
          exact List.Forall₂.cons hg ((ih rest2).mp hr)
    · intro h
      cases h with
      | cons hhead htail =>
        rw [hhead, (ih _).mpr htail]

theorem forall₂_keysOf {g : Json → Option Json}
    {st st₁ : List (String × Json)}
    (h : List.Forall₂ (fun kv kw => kv.1 = kw.1 ∧ g kv.2 = some kw.2) st st₁) :
    keysOf st₁ = keysOf st := by
  induction h with
  | nil => rfl
  | cons hhead htail ih =>
    simp only [keysOf, List.map_cons] at ih ⊢
    rw [ih, hhead.1]

theorem forall₂_lookup {g : Json → Option Json}
    {st st₁ : List (String × Json)}
    (h : List.Forall₂ (fun kv kw => kv.1 = kw.1 ∧ g kv.2 = some kw.2) st st₁)
    (k : String) :
    (lookupKey st k = none ∧ lookupKey st₁ k = none) ∨
      (∃ v w, lookupKey st k = some v ∧ lookupKey st₁ k = some w ∧
        g v = some w) := by
  induction h with
  | nil => exact Or.inl ⟨rfl, rfl⟩
  | cons hhead htail ih =>
    rename_i kv kw rest rest2
    obtain ⟨k1, v⟩ := kv
    obtain ⟨k2, w⟩ := kw
    obtain ⟨hk, hg⟩ := hhead
    simp only at hk
    subst hk
    simp only [lookupKey]
    by_cases hkk : k1 = k
    · rw [if_pos hkk, if_pos hkk]
      exact Or.inr ⟨v, w, rfl, rfl, hg⟩
    · rw [if_neg hkk, if_neg hkk]
      exact ih

/-- Builder: to edit `a` into exactly `b` it suffices that keys agree (with no
duplicates) and that at every key the values are related by `g`. -/
theorem editEntriesGen_of_pointwise (g : Json → Option Json) :
    ∀ (a b : List (String × Json)), keysOf a = keysOf b → (keysOf a).Nodup →
      (∀ k v w, lookupKey a k = some v → lookupKey b k = some w → g v = some w) →
      editEntriesGen g a = some b := by
  intro a
  induction a with
  | nil =>
    intro b hkeys _ _
    have : b = [] := by
      cases b with
      | nil => rfl
      | cons kw rest => cases hkeys
    subst this
    rfl
  | cons kv rest ih =>
    intro b hkeys hnd hpt
    obtain ⟨k, v⟩ := kv
    cases b with
    | nil => cases hkeys
    | cons kw rest2 =>
      obtain ⟨k2, w⟩ := kw
      simp only [keysOf, List.map_cons, List.cons.injEq] at hkeys
      obtain ⟨hk, hkeys2⟩ := hkeys
      subst hk
      have hgv : g v = some w := by
        refine hpt k v w ?_ ?_
        · simp [lookupKey]
        · simp [lookupKey]
      simp only [keysOf, List.map_cons, List.nodup_cons] at hnd
      obtain ⟨hknot, hnd2⟩ := hnd
      have hrest : editEntriesGen g rest = some rest2 := by
        refine ih rest2 hkeys2 hnd2 ?_
        intro k2 v2 w2 hl1 hl2
        have hkne : ¬(k = k2) := by
          intro heq
          subst heq
          exact hknot (by simpa [keysOf] using lookupKey_mem_keys hl1)
        refine hpt k2 v2 w2 ?_ ?_
        · simp only [lookupKey, if_neg hkne]
          exact hl1
        · simp only [lookupKey, if_neg hkne]
          exact hl2
      simp only [editEntriesGen, hgv, hrest]

/-!
### Well-formed trees and the idempotence theorem
-/

mutual

/-- A tree all of whose objects have duplicate-free keys, as every tree built
from Python dicts does. -/
def Json.wfKeys : Json → Bool
  | .obj fields => decide (keysOf fields).Nodup && fieldsWf fields
  | .arr elems => elemsWf elems
  | _ => true

def fieldsWf : List (String × Json) → Bool
  | [] => true
  | (_, v) :: rest => Json.wfKeys v && fieldsWf rest

def elemsWf : List Json → Bool
  | [] => true
  | v :: rest => Json.wfKeys v && elemsWf rest

end

theorem fieldsWf_mem {fields : List (String × Json)} (h : fieldsWf fields = true) :
    ∀ kv ∈ fields, Json.wfKeys kv.2 = true := by
  induction fields with
  | nil => intro kv hkv; cases hkv
  | cons kw rest ih =>
    obtain ⟨k, v⟩ := kw
    rw [show fieldsWf ((k, v) :: rest) = (Json.wfKeys v && fieldsWf rest) from rfl,
      Bool.and_eq_true] at h
    intro kv hkv
    rcases List.mem_cons.mp hkv with heq | hmem
    · subst heq; exact h.1
    · exact ih h.2 kv hmem

theorem elemsWf_mem {elems : List Json} (h : elemsWf elems = true) :
    ∀ x ∈ elems, Json.wfKeys x = true := by
  induction elems with
  | nil => intro x hx; cases hx
  | cons v rest ih =>
    rw [show elemsWf (v :: rest) = (Json.wfKeys v && elemsWf rest) from rfl,
      Bool.and_eq_true] at h
    intro x hx
    rcases List.mem_cons.mp hx with heq | hmem
    · subst heq; exact h.1
    · exact ih h.2 x hmem

theorem forall₂_right_mem {α β : Type} {R : α → β → Prop} {l : List α}
    {l' : List β} (h : List.Forall₂ R l l') :
    ∀ y ∈ l', ∃ x ∈ l, R x y := by
  induction h with
  | nil => intro y hy; cases hy
  | cons hhead htail ih =>
    intro y hy
    rcases List.mem_cons.mp hy with heq | hmem
    · subst heq; exact ⟨_, by simp, hhead⟩
    · obtain ⟨x, hx, hr⟩ := ih y hmem
      exact ⟨x, List.mem_cons_of_mem _ hx, hr⟩

theorem editRec_idem (m : String → Json → Bool)
    (c : String → Json → List (String × Json))
    (hm : ∀ k v w, m k v = m k w) (hc : ∀ k v w, c k v = c k w)
    (hH : ∀ k v, m k v = true → ∀ kv ∈ c k v, m kv.1 kv.2 = true →
      c kv.1 kv.2 = [kv])
    (hcwf : ∀ k v, ∀ kv ∈ c k v, Json.wfKeys kv.2 = true) :
    ∀ fuel t t', Json.wfKeys t = true → editRec m c false fuel t = some t' →
      editRec m c false fuel t' = some t' := by
  intro fuel
  induction fuel with
  | zero =>
    intro t t' hwf h
    cases t with
    | null =>
      have h2 : (some Json.null : Option Json) = some t' := h
      cases h2; rfl
    | bool b =>
      have h2 : (some (Json.bool b) : Option Json) = some t' := h
      cases h2; rfl
    | num n =>
      have h2 : (some (Json.num n) : Option Json) = some t' := h
      cases h2; rfl
    | str s =>
      have h2 : (some (Json.str s) : Option Json) = some t' := h
      cases h2; rfl
    | obj fields => exact Option.noConfusion h
    | arr elems => exact Option.noConfusion h
  | succ f ih =>
    intro t t' hwf h
    cases t with
    | null =>
      have h2 : (some Json.null : Option Json) = some t' := h
      cases h2; rfl
    | bool b =>
      have h2 : (some (Json.bool b) : Option Json) = some t' := h
      cases h2; rfl
    | num n =>
      have h2 : (some (Json.num n) : Option Json) = some t' := h
      cases h2; rfl
    | str s =>
      have h2 : (some (Json.str s) : Option Json) = some t' := h
      cases h2; rfl
    | arr elems =>
      have h2 : (editElemsGen (fun v => editRec m c false f v) elems).map Json.arr
          = some t' := h
      rcases hel : editElemsGen (fun v => editRec m c false f v) elems
        with _ | elems₁
      · rw [hel] at h2; cases h2
      · rw [hel] at h2
        have h3 : some (Json.arr elems₁) = some t' := h2
        cases h3
        have hwfel : ∀ x ∈ elems, Json.wfKeys x = true :=
          elemsWf_mem (show elemsWf elems = true from hwf)
        have hfa := (editElemsGen_forall₂ (fun v => editRec m c false f v)
          elems elems₁).mp hel
        have hfix : editElemsGen (fun v => editRec m c false f v) elems₁
            = some elems₁ := by
          refine (editElemsGen_forall₂ _ _ _).mpr (List.forall₂_same.mpr ?_)
          intro y hy
          obtain ⟨x, hx, hxy⟩ := forall₂_right_mem hfa y hy
          exact ih x y (hwfel x hx) hxy
        show (editElemsGen (fun v => editRec m c false f v) elems₁).map Json.arr
          = some (Json.arr elems₁)
        rw [hfix]
        rfl
    | obj fields =>
      have hwf2 : (decide (keysOf fields).Nodup && fieldsWf fields) = true := hwf
      have hand : (keysOf fields).Nodup ∧ fieldsWf fields = true := by
        simpa [Bool.and_eq_true, decide_eq_true_eq] using hwf2
      have hnodup : (keysOf fields).Nodup := hand.1
      have hvalwf : ∀ kv ∈ fields, Json.wfKeys kv.2 = true := fieldsWf_mem hand.2
      have h2 : (editEntriesGen (fun v => editRec m c false f v)
          (editStep m c false fields)).map Json.obj = some t' := h
      have hstep1 : editStep m c false fields
          = spliceAll fields (stepWritesK m c (keysOf fields)) := by
        rw [editStep_eq_spliceAll, stepWrites_eq_keysK m c hm hc]
      rcases hse : editEntriesGen (fun v => editRec m c false f v)
          (editStep m c false fields) with _ | fields₁
      · rw [hse] at h2; cases h2
      · rw [hse] at h2
        have h3 : some (Json.obj fields₁) = some t' := h2
        cases h3
        have hfa := (editEntriesGen_forall₂ (fun v => editRec m c false f v)
          _ fields₁).mp hse
        have hkeys1 : keysOf fields₁
            = keysOf (spliceAll fields (stepWritesK m c (keysOf fields))) := by
          rw [← hstep1]
          exact forall₂_keysOf hfa
        obtain ⟨E, hkE, hEprop⟩ :=
          spliceAll_keys_decomp (stepWritesK m c (keysOf fields)) fields
        have hnodup1 : (keysOf fields₁).Nodup := by
          rw [hkeys1]
          exact spliceAll_keys_nodup _ fields hnodup
        have hstep1wf : ∀ kv ∈ editStep m c false fields,
            Json.wfKeys kv.2 = true := by
          intro kv hkv
          rw [hstep1] at hkv
          rcases spliceAll_mem hkv with hin | hin
          · exact hvalwf kv hin
          · obtain ⟨k, _, _, hck⟩ := stepWritesK_mem hin
            exact hcwf k Json.null kv hck
        have hW2 : stepWrites m c fields₁
            = stepWritesK m c (keysOf fields) ++ stepWritesK m c E := by
          rw [stepWrites_eq_keysK m c hm hc, hkeys1, hkE, stepWritesK_append]
        have hEW : ∀ e ∈ E, ∃ nv, (e, nv) ∈ stepWritesK m c (keysOf fields) := by
          intro e he
          obtain ⟨h1, _⟩ := hEprop e he
          obtain ⟨o, ho, hfst⟩ := List.mem_map.mp h1
          exact ⟨o.2, by rw [← hfst]; simpa using ho⟩
        have hlw : ∀ k2, lastWrite (stepWrites m c fields₁) k2
            = lastWrite (stepWritesK m c (keysOf fields)) k2 := by
          intro k2
          rw [hW2, lastWrite_append]
          cases hwe : lastWrite (stepWritesK m c E) k2 with
          | none => rfl
          | some u =>
            have hmemu := lastWrite_mem hwe
            obtain ⟨e, heE, hme, hcu⟩ := stepWritesK_mem hmemu
            obtain ⟨nv, hnvW⟩ := hEW e heE
            have hfix := write_fixed hm hc hH hnvW hme
            rw [hfix] at hcu
            simp only [List.mem_singleton, Prod.mk.injEq] at hcu
            obtain ⟨hk2e, hunv⟩ := hcu
            subst hk2e
            subst hunv
            obtain ⟨w2, hw2⟩ := mem_lastWrite_isSome hnvW
            have heqw := write_unique hm hc hH (lastWrite_mem hw2) hnvW hme
            rw [hw2, heqw]
        show (editEntriesGen (fun v => editRec m c false f v)
            (editStep m c false fields₁)).map Json.obj = some (Json.obj fields₁)
        have hstep2 : editStep m c false fields₁
            = spliceAll fields₁ (stepWrites m c fields₁) :=
          editStep_eq_spliceAll m c fields₁
        have hkeys2 : keysOf (editStep m c false fields₁) = keysOf fields₁ := by
          rw [hstep2]
          refine spliceAll_keys_of_subset _ fields₁ ?_
          intro o ho
          rw [hW2] at ho
          rcases List.mem_append.mp ho with hoW | hoE
          · rw [hkeys1]
            exact (spliceAll_keys_mem _ fields o.1).mpr
              (Or.inr (List.mem_map_of_mem Prod.fst hoW))
          · obtain ⟨e, heE, hme, hce⟩ := stepWritesK_mem hoE
            obtain ⟨nv, hnvW⟩ := hEW e heE
            have hfix := write_fixed hm hc hH hnvW hme
            rw [hfix] at hce
            simp only [List.mem_singleton] at hce
            have ho1 : o.1 = e := by rw [hce]
            rw [ho1, hkeys1, hkE]
            exact List.mem_append.mpr (Or.inr heE)
        have hmain : editEntriesGen (fun v => editRec m c false f v)
            (editStep m c false fields₁) = some fields₁ := by
          refine editEntriesGen_of_pointwise _ _ fields₁ hkeys2
            (by rw [hkeys2]; exact hnodup1) ?_
          intro k2 v w hlv hlw2
          rw [hstep2, spliceAll_lookup, hlw] at hlv
          cases hlwW : lastWrite (stepWritesK m c (keysOf fields)) k2 with
          | some u =>
            rw [hlwW] at hlv
            have hvu : u = v := by
              have h4 : (some u : Option Json) = some v := hlv
              injection h4
            subst hvu
            have hl1 : lookupKey (editStep m c false fields) k2 = some u := by
              rw [hstep1, spliceAll_lookup, hlwW]
            rcases forall₂_lookup hfa k2 with ⟨hn, _⟩ | ⟨v2, w2, hv2, hw2, hg⟩
            · rw [hl1] at hn; cases hn
            · rw [hl1] at hv2
              have hv2u : u = v2 := by injection hv2
              subst hv2u
              rw [hlw2] at hw2
              have hww : w = w2 := by injection hw2
              subst hww
              exact hg
          | none =>
            rw [hlwW] at hlv
            rw [hlw2] at hlv
            have hwv : w = v := by injection hlv
            subst hwv
            rcases forall₂_lookup hfa k2 with ⟨_, hn2⟩ | ⟨v2, w2, hv2, hw2, hg⟩
            · rw [hlw2] at hn2; cases hn2
            · rw [hlw2] at hw2
              have hww : w = w2 := by injection hw2
              subst hww
              have hv2wf := hstep1wf _ (lookupKey_mem hv2)
              exact ih v2 w hv2wf hg
        rw [hmain]
        rfl

/-- C9 amended: with `drop=False`, a matcher and converter that depend only on
the key, a converter idempotent on its own output in the strong sense that
every matched output pair is mapped by the converter to exactly itself,
converter output values that are well-formed, and a well-formed input tree,
a successful `edit` result is a fixed point of `edit`: editing the
once-edited tree changes nothing, so applying `edit` twice yields the same
tree as applying it once. -/
theorem edit_twice_eq_once (fuel : Nat) (t t' : Json)
    (m : String → Json → Bool) (c : String → Json → List (String × Json))
    (hm : ∀ k v w, m k v = m k w) (hc : ∀ k v w, c k v = c k w)
    (hH : ∀ k v, m k v = true → ∀ kv ∈ c k v, m kv.1 kv.2 = true →
      c kv.1 kv.2 = [kv])
    (hcwf : ∀ k v, ∀ kv ∈ c k v, Json.wfKeys kv.2 = true)
    (hwf : Json.wfKeys t = true)
    (h : edit fuel t m c false = some t') :
    edit fuel t' m c false = some t' :=
  editRec_idem m c hm hc hH hcwf fuel t t' hwf h

/-- Key-only matcher for the C9 witness. -/
def wmatcher : String → Json → Bool := fun k _ => k == "a"

/-- Key-only converter for the C9 witness. -/
def wconverter : String → Json → List (String × Json) := fun _ _ =>
  [("n", Json.num 7)]

/-- Witness for C9 amended: editing `{"a": 1}` once yields
`{"a": 1, "n": 7}`, and editing that result again returns it unchanged. -/
theorem edit_twice_eq_once_witness :
    edit 5 (Json.obj [("a", Json.num 1), ("n", Json.num 7)]) wmatcher wconverter
      false = some (Json.obj [("a", Json.num 1), ("n", Json.num 7)]) :=
  edit_twice_eq_once 5 (Json.obj [("a", Json.num 1)])
    (Json.obj [("a", Json.num 1), ("n", Json.num 7)]) wmatcher wconverter
    (fun _ _ _ => rfl) (fun _ _ _ => rfl)
    (by
      intro k v h1 kv hkv h2
      simp only [wconverter, List.mem_singleton] at hkv
      subst hkv
      exact absurd h2 (by decide))
    (by
      intro k v kv hkv
      simp only [wconverter, List.mem_singleton] at hkv
      subst hkv
      rfl)
    (by decide) (by decide)

end JsonTools
